import Mathlib

/-!
Verification of the PBO archive container engine of `armake2`
(`src/armake/pbo.rs`), against its natural-language specification.

Modelling conventions (shallow embedding):

* Rust `String` and `&[u8]`/`Box<[u8]>` values are modelled as `List Nat`
  (UTF-8 byte sequences; a byte in the range `128..192` is a UTF-8
  continuation byte).  Byte streams (`Read`/`Write` endpoints) are also
  `List Nat`, consumed from the front.
* Machine integers (`u32`, `usize` casts) are `Nat` with explicit `% 2^32`
  where the source performs an `as u32` cast.
* Fallible operations return `Option`; a Rust panic (`unreachable!`, a
  string-slicing panic, an arithmetic underflow in a range bound) is
  modelled as `none` / a dedicated `panicked` result constructor, kept
  distinct from an `Err` return (`ioError`).
* Loops whose variant is byte consumption are written with an explicit
  fuel parameter so every definition is executable by the kernel; each
  fueled loop comes with a congruence theorem showing the result is
  independent of the fuel once the fuel exceeds the input length, and the
  un-fueled wrapper instantiates the fuel with `input.length + 1`.
-/

set_option autoImplicit false

namespace Armake

/-- `read_cstring` consumption model.

Modelled from the spec: `read_cstring` lives in the `armake::io`/`armake::config`
module, which is not under `src/`; only its callers are.  Spec §4.1: the header
codec "reads, in order, a NUL-terminated name", and §4.4 reads "a sequence of
NUL-terminated key then NUL-terminated value string pairs".  Its Rust signature
at the call sites (`read_cstring(input) -> String`, no `Result`) means it cannot
fail: it consumes bytes up to and including the first NUL and returns the bytes
before it; at end of input it returns whatever was read so far.  Returns
`(string read, remaining stream)`. -/
def readCString : List Nat → List Nat × List Nat
  | [] => ([], [])
  | b :: rest =>
    if b = 0 then ([], rest)
    else
      let p := readCString rest
      (b :: p.1, p.2)

/-- One little-endian `u32` read (`byteorder::ReadBytesExt::read_u32`):
consumes four bytes, least significant first; fails if fewer than four
bytes remain. -/
def readU32 : List Nat → Option (Nat × List Nat)
  | b0 :: b1 :: b2 :: b3 :: rest => some (b0 + 256 * b1 + 65536 * b2 + 16777216 * b3, rest)
  | _ => none

/-- The value denoted by (up to) the first four bytes of a list, read as a
little-endian 32-bit integer. -/
def leVal (l : List Nat) : Nat :=
  l.headD 0 + 256 * l.tail.headD 0 + 65536 * l.tail.tail.headD 0 +
    16777216 * l.tail.tail.tail.headD 0

/-- Little-endian encoding of a `u32` value (`WriteBytesExt::write_u32`);
the source always passes values already below `2^32`, the encoding of a
larger `Nat` is its residue. -/
def le32 (n : Nat) : List Nat :=
  [n % 256, n / 256 % 256, n / 65536 % 256, n / 16777216 % 256]

/-- `struct PBOHeader` (pbo.rs lines 14-21): one fixed-layout entry-header
record. -/
structure PBOHeader where
  filename : List Nat
  packing_method : Nat
  original_size : Nat
  reserved : Nat
  timestamp : Nat
  data_size : Nat
deriving DecidableEq, Repr

/-- `PBOHeader::read` (pbo.rs lines 31-40): a NUL-terminated name followed by
five little-endian `u32` fields; any failed integer read propagates via `?`. -/
def PBOHeader.read (input : List Nat) : Option (PBOHeader × List Nat) :=
  let n := readCString input
  (readU32 n.2).bind fun pr =>
  (readU32 pr.2).bind fun osr =>
  (readU32 osr.2).bind fun rvr =>
  (readU32 rvr.2).bind fun tsr =>
  (readU32 tsr.2).bind fun dsr =>
  some (⟨n.1, pr.1, osr.1, rvr.1, tsr.1, dsr.1⟩, dsr.2)

/-- `PBOHeader::write` (pbo.rs lines 42-51): name bytes, a NUL, then the five
fields little-endian.  Writing to an in-memory buffer cannot fail, so the
encoder is the emitted byte list. -/
def PBOHeader.encode (h : PBOHeader) : List Nat :=
  h.filename ++ [0] ++ le32 h.packing_method ++ le32 h.original_size ++
    le32 h.reserved ++ le32 h.timestamp ++ le32 h.data_size

/-- A header as it exists in the Rust program: a NUL-free name (a Rust
`String` written as a C string) and five `u32` fields. -/
def goodHeader (h : PBOHeader) : Prop :=
  0 ∉ h.filename ∧ h.packing_method < 4294967296 ∧ h.original_size < 4294967296 ∧
    h.reserved < 4294967296 ∧ h.timestamp < 4294967296 ∧ h.data_size < 4294967296

instance (h : PBOHeader) : Decidable (goodHeader h) := by
  unfold goodHeader
  infer_instance

/-- Whether a byte is a UTF-8 continuation byte; Rust string slicing panics
when a slice boundary lands on one. -/
def contByte (b : Nat) : Bool :=
  decide (128 ≤ b) && decide (b < 192)

/-- Rust `str::is_char_boundary i`: true at 0 and at the length, false past
the end, and otherwise true iff the byte at `i` is not a continuation byte.
Slicing `s[..i]` / `s[i..]` panics when this is false. -/
def isCharBoundary (s : List Nat) (i : Nat) : Bool :=
  decide (i = 0) || decide (i = s.length) ||
    (decide (i < s.length) && !contByte (s.getD i 0))

/-- The byte index of the first `'*'` (byte 42) of a pattern, `pattern.find('*')`.
In valid UTF-8 the byte 42 only ever encodes the character `'*'`. -/
def findStar : List Nat → Option Nat
  | [] => none
  | b :: bs => if b = 42 then some 0 else (findStar bs).map (· + 1)

/-- The split-point loop of `matches_glob` (pbo.rs lines 58-60):
`for i in (index+1)..(s.len()-1) { if matches_glob(&s[i..], ...) { return true; } }`.
`t` is the current suffix `s[i..]` and `c` the number of remaining iterations;
`f t` is the recursive call on the suffix.  Slicing `s[i..]` first checks the
char boundary at `i`, i.e. that the head of `t` is not a continuation byte;
a boundary violation, like a panic inside the recursive call, is `none`. -/
def globTry (f : List Nat → Option Bool) : Nat → List Nat → Option Bool
  | 0, _ => some false
  | c + 1, t =>
    if contByte (t.headD 0) then none
    else
      match f t with
      | none => none
      | some true => some true
      | some false => globTry f c t.tail

/-- `matches_glob` (pbo.rs lines 54-66), fueled.  With a wildcard at byte
position `index`: slicing `s[..index]` panics (`none`) unless `index` is a
char boundary of `s`; on a prefix mismatch the result is `false`; the range
bound `s.len()-1` underflows (and the first slice `s[i..]` is out of range)
when `s` is empty, a panic either way; otherwise the split-point loop runs.
Without a wildcard the match is plain string equality.  Each recursive call
strictly shrinks `s`, so any fuel above `s.length` is enough. -/
def matchesGlobF : Nat → List Nat → List Nat → Option Bool
  | 0, _, _ => none
  | fuel + 1, s, pattern =>
    match findStar pattern with
    | some index =>
      if !isCharBoundary s index then none
      else if decide (s.take index ≠ pattern.take index) then some false
      else if s.length = 0 then none
      else
        globTry (fun t => matchesGlobF fuel t (pattern.drop (index + 1)))
          (s.length - 1 - (index + 1)) (s.drop (index + 1))
    | none => some (decide (s = pattern))

/-- `matches_glob(s, pattern)`: `some b` when the Rust function returns `b`,
`none` when it panics. -/
def matchesGlob (s pattern : List Nat) : Option Bool :=
  matchesGlobF (s.length + 1) s pattern

/-- `file_allowed` (pbo.rs lines 68-74): true iff no exclude pattern matches;
a panic in the matcher propagates. -/
def file_allowed (name : List Nat) : List (List Nat) → Option Bool
  | [] => some true
  | p :: ps =>
    match matchesGlob name p with
    | none => none
    | some true => some false
    | some false => file_allowed name ps

/-- Claim-side definition (spec §4.2's words, not the source): classic
single-wildcard backtracking.  With a wildcard at position `i` the prefixes
up to `i` must agree and some split point of the candidate's remaining tail —
including the split where the wildcard consumes zero bytes and the one where
it consumes the whole tail — must make the part after the split match the
pattern's tail; with no wildcard, exact equality.  Fueled on the pattern,
which strictly shrinks at each recursive call. -/
def specClassicGlobF : Nat → List Nat → List Nat → Bool
  | 0, _, _ => false
  | fuel + 1, s, pattern =>
    match findStar pattern with
    | some index =>
      decide (s.take index = pattern.take index) &&
        (List.range (s.length - index + 1)).any
          (fun k => specClassicGlobF fuel (s.drop (index + k)) (pattern.drop (index + 1)))
    | none => decide (s = pattern)

/-- Claim-side classic single-wildcard matcher (spec §4.2's words). -/
def specClassicGlob (s pattern : List Nat) : Bool :=
  specClassicGlobF (pattern.length + 1) s pattern

/-! ### Ordered and unordered string maps

`linked_hash_map::LinkedHashMap` (the `files` table) and
`std::collections::HashMap` (the `header_extensions` table) are both modelled
as association lists of byte strings.  `insert` updates the value in place
when the key is present and appends otherwise; for the unordered `HashMap`
only the lookup function is ever observable, and the writer's iteration order
over it is whatever order the model list carries. -/

/-- Map/set insert: replace the value of an existing key in place, else
append the pair at the back. -/
def lhmInsert (m : List (List Nat × List Nat)) (k v : List Nat) :
    List (List Nat × List Nat) :=
  if m.any (fun p => decide (p.1 = k)) then
    m.map (fun p => if p.1 = k then (k, v) else p)
  else m ++ [(k, v)]

/-- Association-list lookup (the observable content of either map). -/
def assocLookup (k : List Nat) : List (List Nat × List Nat) → Option (List Nat)
  | [] => none
  | p :: ps => if p.1 = k then some p.2 else assocLookup k ps

/-- The key list of an association list. -/
def keysOf (m : List (List Nat × List Nat)) : List (List Nat) :=
  m.map Prod.fst

/-- Concatenation of the images of a list under a list-valued function. -/
def concatMap {α : Type} (f : α → List Nat) : List α → List Nat
  | [] => []
  | x :: xs => f x ++ concatMap f xs

/-- `struct PBO` (pbo.rs lines 23-28): the in-memory archive container. -/
structure PBO where
  files : List (List Nat × List Nat)
  header_extensions : List (List Nat × List Nat)
  headers : List PBOHeader
  checksum : Option (List Nat)
deriving DecidableEq, Repr

/-- Result of the header-reading loop of `PBO::read`. -/
inductive LoopRes where
  | done (headers : List PBOHeader) (exts : List (List Nat × List Nat)) (rest : List Nat)
  | ioError
  | panicked
deriving DecidableEq, Repr

/-- Result of `PBO::read` as observed by a caller: an `Ok` container, an
`Err` return (`ioError`, from a `?` on a truncated stream), or a process
crash (`panicked`, from `unreachable!`). -/
inductive ReadResult where
  | ok (pbo : PBO)
  | ioError
  | panicked
deriving DecidableEq, Repr

/-- The metadata-extension loop of `PBO::read` (pbo.rs lines 89-94), fueled:
read a NUL-terminated key; an empty key ends the block; otherwise read a
NUL-terminated value and insert the pair.  Each kept pair consumes at least
one byte, so any fuel above the input length is enough. -/
def readExtLoopF : Nat → List Nat → List (List Nat × List Nat) →
    List (List Nat × List Nat) × List Nat
  | 0, input, exts => (exts, input)
  | fuel + 1, input, exts =>
    let p := readCString input
    if p.1.length = 0 then (exts, p.2)
    else
      let v := readCString p.2
      readExtLoopF fuel v.2 (lhmInsert exts p.1 v.1)

/-- The metadata-extension loop of `PBO::read` at sufficient fuel. -/
def readExtLoop (input : List Nat) (exts : List (List Nat × List Nat)) :
    List (List Nat × List Nat) × List Nat :=
  readExtLoopF (input.length + 1) input exts

/-- The header loop of `PBO::read` (pbo.rs lines 82-102), fueled: decode a
header (`?` on failure); on the sentinel packing method `0x56657273` require
this to be the first iteration (`unreachable!`, i.e. a panic, otherwise) and
parse the metadata-extension block; an empty filename otherwise ends the
loop; any other header is appended.  `first` is cleared after the first
iteration.  Each iteration consumes at least 21 bytes, so any fuel above the
input length is enough. -/
def readLoopF : Nat → List Nat → Bool → List PBOHeader →
    List (List Nat × List Nat) → LoopRes
  | 0, _, _, _, _ => .ioError
  | fuel + 1, input, first, hs, exts =>
    match PBOHeader.read input with
    | none => .ioError
    | some (header, rest) =>
      if header.packing_method = 0x56657273 then
        if first then
          let er := readExtLoop rest exts
          readLoopF fuel er.2 false hs er.1
        else .panicked
      else if header.filename = [] then .done hs exts rest
      else readLoopF fuel rest false (hs ++ [header]) exts

/-- The header loop of `PBO::read` at sufficient fuel. -/
def readLoop (input : List Nat) (first : Bool) (hs : List PBOHeader)
    (exts : List (List Nat × List Nat)) : LoopRes :=
  readLoopF (input.length + 1) input first hs exts

/-- The content phase of `PBO::read` (pbo.rs lines 104-109): for each
accumulated header in order, `read_exact` a buffer of `data_size` bytes
(failing if the stream is shorter) and insert it under the header's
filename. -/
def readContents : List PBOHeader → List Nat → List (List Nat × List Nat) →
    Option (List (List Nat × List Nat) × List Nat)
  | [], input, files => some (files, input)
  | h :: hs, input, files =>
    if h.data_size ≤ input.length then
      readContents hs (input.drop h.data_size)
        (lhmInsert files h.filename (input.take h.data_size))
    else none

/-- `PBO::read` (pbo.rs lines 77-121): run the header loop, read the
contents, skip one byte if present (`input.bytes().next()` ignores end of
stream), then `read_exact` the 20-byte trailing checksum.  Trailing bytes
beyond the checksum are not inspected. -/
def PBO.read (input : List Nat) : ReadResult :=
  match readLoop input true [] [] with
  | .ioError => .ioError
  | .panicked => .panicked
  | .done hs exts rest =>
    match readContents hs rest [] with
    | none => .ioError
    | some (files, rest2) =>
      let rest3 := rest2.drop 1
      if 20 ≤ rest3.length then
        .ok ⟨files, exts, hs, some (rest3.take 20)⟩
      else .ioError

/-! ### Writer -/

/-- ASCII case folding of one byte.  The source lowercases with Rust's
Unicode `str::to_lowercase`, which agrees with ASCII folding on ASCII
bytes. -/
def lowByte (b : Nat) : Nat :=
  if 65 ≤ b ∧ b ≤ 90 then b + 32 else b

/-- Case-folded copy of a byte string, the writer's sort key. -/
def lowercase (s : List Nat) : List Nat :=
  s.map lowByte

/-- Strict lexicographic byte order, Rust's `Ord` on strings. -/
def lexLt : List Nat → List Nat → Bool
  | [], [] => false
  | [], _ :: _ => true
  | _ :: _, [] => false
  | a :: as, b :: bs => if a < b then true else if a = b then lexLt as bs else false

/-- One step of a stable insertion sort on `(name, content)` pairs, ordered
by the case-folded name: the new pair goes in front of the first resident
pair whose key is not strictly below its own, so a pair inserted later ends
up after equal keys. -/
def insLow (x : List Nat × List Nat) : List (List Nat × List Nat) →
    List (List Nat × List Nat)
  | [] => [x]
  | y :: ys => if lexLt (lowercase y.1) (lowercase x.1) then y :: insLow x ys else x :: y :: ys

/-- `files_sorted` of `PBO::write` (pbo.rs lines 205-206): the entry table
sorted case-insensitively by filename.  `Vec::sort_by` is a stable sort, and
a stable sort by a total preorder has a unique result, here reached by
insertion. -/
def PBO.sortedFiles (pbo : PBO) : List (List Nat × List Nat) :=
  pbo.files.foldr insLow []

/-- The byte string `prefix`, the distinguished metadata key. -/
def prefixKey : List Nat := [112, 114, 101, 102, 105, 120]

/-- The ext-block serialization of one metadata pair. -/
def extPairBytes (p : List Nat × List Nat) : List Nat :=
  p.1 ++ [0] ++ p.2 ++ [0]

/-- The metadata-extension block emitted by `PBO::write` (pbo.rs lines
179-203): the sentinel header, the `prefix` pair first if present, every
other pair of the map, then an empty key. -/
def PBO.extBlockBytes (pbo : PBO) : List Nat :=
  PBOHeader.encode ⟨[], 0x56657273, 0, 0, 0, 0⟩ ++
    (match assocLookup prefixKey pbo.header_extensions with
     | some v => extPairBytes (prefixKey, v)
     | none => []) ++
    concatMap (fun p => if p.1 = prefixKey then [] else extPairBytes p)
      pbo.header_extensions ++
    [0]

/-- The metadata pairs of the ext block in the order the writer emits them:
the `prefix` pair first when present, then every other pair of the map in
iteration order. -/
def prefixPairList (exts : List (List Nat × List Nat)) : List (List Nat × List Nat) :=
  (match assocLookup prefixKey exts with
   | some v => [(prefixKey, v)]
   | none => []) ++ exts.filter (fun p => !decide (p.1 = prefixKey))

/-- The per-entry headers emitted by `PBO::write` (pbo.rs lines 208-219):
one per sorted entry, stored method `0`, both sizes the content length cast
`as u32`. -/
def PBO.entryHeaders (pbo : PBO) : List PBOHeader :=
  pbo.sortedFiles.map fun p =>
    ⟨p.1, 0, p.2.length % 4294967296, 0, 0, p.2.length % 4294967296⟩

/-- The complete header section emitted by `PBO::write`: ext block, entry
headers, and the terminating empty-name header with packing method `0`
(pbo.rs lines 221-225). -/
def PBO.headerBlock (pbo : PBO) : List Nat :=
  pbo.extBlockBytes ++ concatMap PBOHeader.encode pbo.entryHeaders ++
    PBOHeader.encode ⟨[], 0, 0, 0, 0, 0⟩

/-- The entry contents emitted by `PBO::write`, in sorted order. -/
def PBO.contentBytes (pbo : PBO) : List Nat :=
  concatMap Prod.snd pbo.sortedFiles

/-- `PBO::write` (pbo.rs lines 176-241): header section, contents, one zero
pad byte, then the digest of everything written so far.  The SHA-1 hasher is
the external `openssl` collaborator; it is abstracted as the function
parameter `sha` (spec §4.5 and §6 fix only that the finished digest is 20
bytes). -/
def PBO.write (sha : List Nat → List Nat) (pbo : PBO) : List Nat :=
  pbo.headerBlock ++ pbo.contentBytes ++ [0] ++
    sha (pbo.headerBlock ++ pbo.contentBytes)

/-! ### Content hash -/

/-- Rust `str::split(sep)` on byte strings: the list of separator-free
segments, with an empty segment between adjacent separators and at either
end; splitting the empty string yields one empty segment. -/
def rustSplit (sep : Nat) : List Nat → List (List Nat)
  | [] => [[]]
  | b :: bs =>
    if b = sep then [] :: rustSplit sep bs
    else
      match rustSplit sep bs with
      | [] => [[b]]
      | seg :: segs => (b :: seg) :: segs

/-- The last element of a segment list (`Iterator::last().unwrap()`;
`rustSplit` never returns an empty list, so the default is unreachable). -/
def lastSeg : List (List Nat) → List Nat
  | [] => []
  | [x] => x
  | _ :: y :: xs => lastSeg (y :: xs)

/-- The extension test of `PBO::filehash` (pbo.rs lines 261-267): the
segment of the filename after the last `'.'` (byte 46) — the whole name when
it has no dot — compared byte-for-byte against the fixed denylist
`paa jpg p3d tga rvmat lip ogg wss png rtm pac fxy wrp`. -/
def hashExcluded (name : List Nat) : Bool :=
  let ext := lastSeg (rustSplit 46 name)
  decide (ext = [112, 97, 97]) || decide (ext = [106, 112, 103]) ||
    decide (ext = [112, 51, 100]) || decide (ext = [116, 103, 97]) ||
    decide (ext = [114, 118, 109, 97, 116]) || decide (ext = [108, 105, 112]) ||
    decide (ext = [111, 103, 103]) || decide (ext = [119, 115, 115]) ||
    decide (ext = [112, 110, 103]) || decide (ext = [114, 116, 109]) ||
    decide (ext = [112, 97, 99]) || decide (ext = [102, 120, 121]) ||
    decide (ext = [119, 114, 112])

/-- The fixed denylist of extensions as a list, for the claim-side
characterization. -/
def denyExts : List (List Nat) :=
  [[112, 97, 97], [106, 112, 103], [112, 51, 100], [116, 103, 97],
   [114, 118, 109, 97, 116], [108, 105, 112], [111, 103, 103], [119, 115, 115],
   [112, 110, 103], [114, 116, 109], [112, 97, 99], [102, 120, 121],
   [119, 114, 112]]

/-- The byte string `nothing`, the placeholder digest input. -/
def nothingBytes : List Nat := [110, 111, 116, 104, 105, 110, 103]

/-- The byte sequence `PBO::filehash` (pbo.rs lines 256-276) feeds to its
SHA-1 hasher (the digest itself is the external `openssl` collaborator, and
equal inputs give equal digests): walk the entries in container order,
skipping denylisted extensions and appending the raw content bytes of the
rest; if no entry was hashed, the literal `nothing` is hashed instead. -/
def PBO.filehashInput (pbo : PBO) : List Nat :=
  let r := pbo.files.foldl
    (fun acc p => if hashExcluded p.1 then acc else (acc.1 ++ p.2, false))
    ([], true)
  if r.2 then nothingBytes else r.1

/-! ### Directory packer

`PBO::from_directory` (pbo.rs lines 123-174) walks a filesystem subtree;
the walk itself (`list_files`, `File::open`, `read_to_end`) is I/O, so the
packer is modelled on the walk's outcome: the list of (relative name with
backslash separators, content bytes) pairs, in walk order, plus the
directory's own name.  The `config.cpp` branch hands the file to the
external configuration compiler (`armake::config`, a collaborator outside
the core), abstracted as the function parameter `compile`. -/

/-- The byte string `$PBOPREFIX$`. -/
def pboPrefixName : List Nat := [36, 80, 66, 79, 80, 82, 69, 70, 73, 88, 36]

/-- The byte string `config.cpp`. -/
def configCpp : List Nat := [99, 111, 110, 102, 105, 103, 46, 99, 112, 112]

/-- The byte string `config.bin`. -/
def configBin : List Nat := [99, 111, 110, 102, 105, 103, 46, 98, 105, 110]

/-- One line of the `$PBOPREFIX$` parser (pbo.rs lines 142-147): split the
line on `'='` (byte 61); a single segment sets the `prefix` key to the whole
line, otherwise the first segment maps to the second. -/
def prefixLine (exts : List (List Nat × List Nat)) (l : List Nat) :
    List (List Nat × List Nat) :=
  let eq := rustSplit 61 l
  if eq.length = 1 then lhmInsert exts prefixKey l
  else lhmInsert exts (eq.headD []) (eq.tail.headD [])

/-- The `$PBOPREFIX$` line loop (pbo.rs lines 139-148): process the lines of
the split on `'\n'` in order, stopping at the first empty line. -/
def prefixLineLoop (exts : List (List Nat × List Nat)) :
    List (List Nat) → List (List Nat × List Nat)
  | [] => exts
  | l :: ls => if l.length = 0 then exts else prefixLineLoop (prefixLine exts l) ls

/-- The per-file loop of `PBO::from_directory` (pbo.rs lines 128-161):
excluded names are skipped (a glob panic propagates), `$PBOPREFIX$` is
parsed into metadata instead of being stored, `config.cpp` is compiled and
stored as `config.bin`, and every other file is stored under its own name. -/
def packLoop (compile : List Nat → List Nat) (excludes : List (List Nat)) :
    List (List Nat × List Nat) → List (List Nat × List Nat) →
    List (List Nat × List Nat) →
    Option (List (List Nat × List Nat) × List (List Nat × List Nat))
  | [], files, exts => some (files, exts)
  | (name, content) :: rest, files, exts =>
    match file_allowed name excludes with
    | none => none
    | some false => packLoop compile excludes rest files exts
    | some true =>
      if name = pboPrefixName then
        packLoop compile excludes rest files (prefixLineLoop exts (rustSplit 10 content))
      else if name = configCpp then
        packLoop compile excludes rest (lhmInsert files configBin (compile content)) exts
      else
        packLoop compile excludes rest (lhmInsert files name content) exts

/-- `PBO::from_directory` on the outcome of the directory walk: run the
per-file loop on empty tables, then synthesize the `prefix` metadata key
from the directory's own name if the walk did not set one. -/
def fromFileList (compile : List Nat → List Nat) (dirname : List Nat)
    (entries : List (List Nat × List Nat)) (excludes : List (List Nat)) :
    Option PBO :=
  match packLoop compile excludes entries [] [] with
  | none => none
  | some (files, exts) =>
    let exts' := if assocLookup prefixKey exts = none
      then lhmInsert exts prefixKey dirname else exts
    some ⟨files, exts', [], none⟩

/-! ## Theorems

### Glob matcher -/

theorem globTry_congr (f g : List Nat → Option Bool) (c : Nat) (t : List Nat)
    (h : ∀ u, u.length ≤ t.length → f u = g u) : globTry f c t = globTry g c t := by
  induction c generalizing t with
  | zero => rfl
  | succ c ih =>
    simp only [globTry]
    rw [h t (Nat.le_refl _)]
    cases g t with
    | none => rfl
    | some b =>
      cases b
      · exact if_congr Iff.rfl rfl (ih t.tail fun u hu =>
          h u (hu.trans (List.length_tail t ▸ Nat.sub_le _ _)))
      · rfl

theorem matchesGlobF_congr : ∀ f1 f2 s p, s.length < f1 → s.length < f2 →
    matchesGlobF f1 s p = matchesGlobF f2 s p := by
  intro f1
  induction f1 with
  | zero => intro f2 s p h1 h2; exact absurd h1 (Nat.not_lt_zero _)
  | succ f1 ih =>
    intro f2 s p h1 h2
    match f2, h2 with
    | f2 + 1, h2 =>
      simp only [matchesGlobF]
      cases findStar p with
      | none => rfl
      | some index =>
        dsimp only
        split
        · rfl
        · split
          · rfl
          · split
            · rfl
            next hz =>
              refine globTry_congr _ _ _ _ fun u hu => ih f2 u _ ?_ ?_ <;>
              · have := List.length_drop (index + 1) s
                omega

theorem globTry_eq_some (f : List Nat → Option Bool) :
    ∀ (c : Nat) (t : List Nat) (b : Bool), globTry f c t = some b →
      (b = true ↔ ∃ k, k < c ∧ f (t.drop k) = some true) := by
  intro c
  induction c with
  | zero =>
    intro t b h
    simp only [globTry, Option.some.injEq] at h
    simp [← h]
  | succ c ih =>
    intro t b h
    simp only [globTry] at h
    by_cases hc : contByte (t.headD 0) = true
    · rw [if_pos hc] at h; exact absurd h (by simp)
    · rw [if_neg hc] at h
      cases hf : f t with
      | none => rw [hf] at h; exact absurd h (by simp)
      | some b0 =>
        rw [hf] at h
        cases b0 with
        | true =>
          simp only [Option.some.injEq] at h
          subst h
          simp only [true_iff]
          exact ⟨0, Nat.succ_pos _, by simpa using hf⟩
        | false =>
          have := ih t.tail b h
          rw [this]
          constructor
          · rintro ⟨k, hk, hfk⟩
            refine ⟨k + 1, by omega, ?_⟩
            rwa [← List.drop_one, List.drop_drop, Nat.add_comm] at hfk
          · rintro ⟨k, hk, hfk⟩
            match k with
            | 0 => simp only [List.drop_zero] at hfk; rw [hfk] at hf; cases hf
            | k + 1 =>
              refine ⟨k, by omega, ?_⟩
              rwa [← List.drop_one, List.drop_drop, Nat.add_comm]

/-- C2, counterexample: at candidate `ab` and pattern `a*b` the classic
single-wildcard backtracking of the claim succeeds (the wildcard consumes
zero characters), but `matches_glob` returns `false`: its split-point loop
starts only after the wildcard has consumed one byte and stops before tails
shorter than two bytes, so no split is tried at all. -/
theorem matchesGlob_claim_counterexample :
    specClassicGlob [97, 98] [97, 42, 98] = true ∧
    matchesGlob [97, 98] [97, 42, 98] = some false := by
  exact ⟨by decide, by decide⟩

/-- C2 (amended): when `matches_glob` returns without panicking, then with no
wildcard in the pattern it returns plain string equality; and with a wildcard
at byte position `index` it returns true iff the prefixes up to `index` agree
and some split point `j` of the candidate — with the wildcard consuming at
least one byte (`index + 1 ≤ j`) and at least two bytes remaining after the
split (`j + 2 ≤ s.length`) — makes the candidate's part after the split match
the pattern's tail. -/
theorem matchesGlob_characterization (s p : List Nat) (b : Bool)
    (h : matchesGlob s p = some b) :
    (findStar p = none → b = decide (s = p)) ∧
    (∀ index, findStar p = some index →
      (b = true ↔ s.take index = p.take index ∧
        ∃ j, index + 1 ≤ j ∧ j + 2 ≤ s.length ∧
          matchesGlob (s.drop j) (p.drop (index + 1)) = some true)) := by
  constructor
  · intro hfs
    simp only [matchesGlob, matchesGlobF, hfs, Option.some.injEq] at h
    exact h.symm
  · intro index hfs
    simp only [matchesGlob, matchesGlobF, hfs] at h
    split at h
    · simp at h
    · split at h
      next hpre =>
        have hpre' : ¬s.take index = p.take index := by simpa using hpre
        have hb : b = false := by simpa using h.symm
        subst hb
        simp only [Bool.false_eq_true, false_iff]
        rintro ⟨hp, -⟩
        exact hpre' hp
      next hpre =>
        have hpre' : s.take index = p.take index := by
          by_contra hc
          exact hpre (by simpa using hc)
        split at h
        · simp at h
        next hz =>
          have hch := globTry_eq_some _ _ _ _ h
          have hconv : ∀ j, 1 ≤ j →
              matchesGlobF s.length (s.drop j) (p.drop (index + 1)) =
                matchesGlob (s.drop j) (p.drop (index + 1)) := by
            intro j hj
            refine matchesGlobF_congr s.length ((s.drop j).length + 1) _ _ ?_ ?_
            · have := List.length_drop j s
              omega
            · omega
          rw [hch]
          constructor
          · rintro ⟨k, hk, hfk⟩
            rw [List.drop_drop] at hfk
            refine ⟨hpre', index + 1 + k, by omega, by omega, ?_⟩
            rw [← hconv (index + 1 + k) (by omega)]
            exact hfk
          · rintro ⟨-, j, hj1, hj2, hm⟩
            refine ⟨j - (index + 1), by omega, ?_⟩
            rw [List.drop_drop, show index + 1 + (j - (index + 1)) = j by omega]
            rw [hconv j (by omega)]
            exact hm

/-- C2, witness: the characterization applied at candidate `a.p3d`, pattern
`*.p3d`, which `matches_glob` accepts. -/
theorem matchesGlob_characterization_witness :
    (findStar [42, 46, 112, 51, 100] = none →
      true = decide ([97, 46, 112, 51, 100] = [42, 46, 112, 51, 100])) ∧
    (∀ index, findStar [42, 46, 112, 51, 100] = some index →
      (true = true ↔
        List.take index [97, 46, 112, 51, 100] = List.take index [42, 46, 112, 51, 100] ∧
        ∃ j, index + 1 ≤ j ∧ j + 2 ≤ List.length [97, 46, 112, 51, 100] ∧
          matchesGlob (List.drop j [97, 46, 112, 51, 100])
            (List.drop (index + 1) [42, 46, 112, 51, 100]) = some true)) :=
  matchesGlob_characterization [97, 46, 112, 51, 100] [42, 46, 112, 51, 100] true (by decide)

/-- C8, counterexample: `matches_glob` is not total: at candidate `a` and
pattern `ab*` the wildcard's byte position 2 exceeds the candidate's length,
so the prefix slice `s[..2]` panics. -/
theorem matchesGlob_total_counterexample :
    matchesGlob [97] [97, 98, 42] = none := by
  decide

/-- C8 (amended): with no wildcard in the pattern `matches_glob` always
returns a boolean (plain equality); with a wildcard it is partial: whenever
the wildcard's byte position exceeds the candidate's length, the prefix
slice is out of range and the function panics instead of returning. -/
theorem matchesGlob_totality :
    (∀ s p, findStar p = none → matchesGlob s p = some (decide (s = p))) ∧
    (∀ s p i, findStar p = some i → s.length < i → matchesGlob s p = none) := by
  constructor
  · intro s p hfs
    simp [matchesGlob, matchesGlobF, hfs]
  · intro s p i hfs hlen
    have hb : isCharBoundary s i = false := by
      simp only [isCharBoundary]
      have h0 : ¬i = 0 := by omega
      have h1 : ¬i = s.length := by omega
      have h2 : ¬i < s.length := by omega
      simp [h0, h1, h2]
    simp [matchesGlob, matchesGlobF, hfs, hb]

/-- C8, witness: both parts of the totality theorem at concrete inputs:
`config.cpp` against itself (no wildcard), and candidate `a` against pattern
`ab*` (wildcard position past the end). -/
theorem matchesGlob_totality_witness :
    matchesGlob [99, 102, 103] [99, 102, 103] =
      some (decide (([99, 102, 103] : List Nat) = [99, 102, 103])) ∧
    matchesGlob [97] [97, 98, 42] = none :=
  ⟨matchesGlob_totality.1 [99, 102, 103] [99, 102, 103] (by decide),
   matchesGlob_totality.2 [97] [97, 98, 42] 2 (by decide) (by decide)⟩

/-! ### Entry header codec -/

theorem readCString_no_nul (l : List Nat) (h : 0 ∉ l) : readCString l = (l, []) := by
  induction l with
  | nil => rfl
  | cons b bs ih =>
    have hb : ¬b = 0 := fun hb => h (by simp [hb])
    simp only [readCString, if_neg hb, ih (fun hm => h (List.mem_cons_of_mem _ hm))]

theorem readCString_append (name rest : List Nat) (h : 0 ∉ name) :
    readCString (name ++ 0 :: rest) = (name, rest) := by
  induction name with
  | nil => simp [readCString]
  | cons b bs ih =>
    have hb : ¬b = 0 := fun hb => h (by simp [hb])
    simp [List.cons_append, readCString, if_neg hb,
      ih (fun hm => h (List.mem_cons_of_mem _ hm))]

theorem readCString_length (l : List Nat) :
    (readCString l).2.length < l.length ∨
      ((readCString l).2 = [] ∧ (readCString l).1 = l) := by
  induction l with
  | nil => exact Or.inr ⟨rfl, rfl⟩
  | cons b bs ih =>
    by_cases hb : b = 0
    · simp only [readCString, if_pos hb, List.length_cons]
      exact Or.inl (Nat.lt_succ_self _)
    · simp only [readCString, if_neg hb, List.length_cons]
      rcases ih with h | ⟨h1, h2⟩
      · exact Or.inl (Nat.lt_succ_of_lt h)
      · exact Or.inr ⟨h1, by rw [h2]⟩

theorem readU32_eq_none (l : List Nat) (h : l.length < 4) : readU32 l = none := by
  match l with
  | [] => rfl
  | [_] => rfl
  | [_, _] => rfl
  | [_, _, _] => rfl
  | _ :: _ :: _ :: _ :: _ => simp only [List.length_cons] at h; omega

theorem readU32_eq_some (l : List Nat) (h : 4 ≤ l.length) :
    readU32 l = some (leVal l, l.drop 4) := by
  match l with
  | [] | [_] | [_, _] | [_, _, _] => simp at h
  | a :: b :: c :: d :: r => simp [readU32, leVal]

theorem readU32_length (l r : List Nat) (v : Nat) (h : readU32 l = some (v, r)) :
    l.length = r.length + 4 := by
  match l with
  | [] | [_] | [_, _] | [_, _, _] => exact absurd h (by simp [readU32])
  | a :: b :: c :: d :: r' =>
    simp only [readU32, Option.some.injEq, Prod.mk.injEq] at h
    rw [← h.2]
    simp

theorem readU32_le32 (n : Nat) (r : List Nat) :
    readU32 (le32 n ++ r) = some (n % 4294967296, r) := by
  simp only [le32, List.cons_append, List.nil_append, readU32, Option.some.injEq,
    Prod.mk.injEq]
  refine ⟨by omega, ?_⟩
  trivial

/-- Successful header decode consumes at least the NUL and the 20 field
bytes. -/
theorem PBOHeader.read_length (input : List Nat) (h : PBOHeader) (rest : List Nat)
    (hr : PBOHeader.read input = some (h, rest)) : rest.length + 21 ≤ input.length := by
  simp only [PBOHeader.read, Option.bind_eq_some] at hr
  obtain ⟨⟨pm, r1⟩, h1, ⟨os, r2⟩, h2, ⟨rv, r3⟩, h3, ⟨ts, r4⟩, h4, ⟨ds, r5⟩, h5, hfin⟩ := hr
  dsimp only at h1 h2 h3 h4 h5 hfin
  simp only [Option.some.injEq, Prod.mk.injEq] at hfin
  have e1 := readU32_length _ _ _ h1
  have e2 := readU32_length _ _ _ h2
  have e3 := readU32_length _ _ _ h3
  have e4 := readU32_length _ _ _ h4
  have e5 := readU32_length _ _ _ h5
  have hrr : rest.length = r5.length := by rw [hfin.2]
  rcases readCString_length input with hc | ⟨hc, -⟩
  · omega
  · rw [hc] at h1
    exact absurd h1 (by simp [readU32])

/-- Decoding the encoding of a header with NUL-free name and in-range fields
recovers it exactly and leaves the rest of the stream. -/
theorem PBOHeader.read_encode (h : PBOHeader) (rest : List Nat) (hn : 0 ∉ h.filename)
    (h1 : h.packing_method < 4294967296) (h2 : h.original_size < 4294967296)
    (h3 : h.reserved < 4294967296) (h4 : h.timestamp < 4294967296)
    (h5 : h.data_size < 4294967296) :
    PBOHeader.read (PBOHeader.encode h ++ rest) = some (h, rest) := by
  simp only [PBOHeader.encode, PBOHeader.read, List.append_assoc, List.singleton_append,
    List.cons_append, List.nil_append, readCString_append _ _ hn, readU32_le32,
    Option.some_bind]
  simp only [Nat.mod_eq_of_lt h1, Nat.mod_eq_of_lt h2, Nat.mod_eq_of_lt h3,
    Nat.mod_eq_of_lt h4, Nat.mod_eq_of_lt h5]

/-- C3 (confirmed): the entry-header decode reads a NUL-terminated name and
then five little-endian 32-bit fields in the order packing method, original
size, reserved, timestamp, data size, and fails whenever the stream ends
before all six fields have been read: with no NUL in the stream the name
consumes everything (the first integer read then fails), with fewer than 20
bytes after the first NUL one of the integer reads fails, and with at least
20 bytes the decode succeeds and consumes exactly the name, the NUL and the
20 field bytes. -/
theorem PBOHeader.read_contract (input name tail rest5 : List Nat) :
    (0 ∉ input → PBOHeader.read input = none) ∧
    (0 ∉ name → rest5.length < 20 → PBOHeader.read (name ++ 0 :: rest5) = none) ∧
    (0 ∉ name → 20 ≤ tail.length →
      PBOHeader.read (name ++ 0 :: tail) =
        some (⟨name, leVal tail, leVal (tail.drop 4), leVal (tail.drop 8),
          leVal (tail.drop 12), leVal (tail.drop 16)⟩, tail.drop 20)) := by
  refine ⟨?_, ?_, ?_⟩
  · intro hni
    simp [PBOHeader.read, readCString_no_nul input hni, readU32]
  · intro hn hlen
    simp only [PBOHeader.read, readCString_append _ _ hn]
    by_cases c1 : rest5.length < 4
    · simp [readU32_eq_none _ c1]
    · simp [readU32_eq_some rest5 (by omega)]
      by_cases c2 : rest5.length < 8
      · simp [readU32_eq_none (rest5.drop 4) (by rw [List.length_drop]; omega)]
      · simp [readU32_eq_some (rest5.drop 4) (by rw [List.length_drop]; omega)]
        by_cases c3 : rest5.length < 12
        · simp [readU32_eq_none (rest5.drop 8) (by rw [List.length_drop]; omega)]
        · simp [readU32_eq_some (rest5.drop 8) (by rw [List.length_drop]; omega)]
          by_cases c4 : rest5.length < 16
          · simp [readU32_eq_none (rest5.drop 12) (by rw [List.length_drop]; omega)]
          · simp [readU32_eq_some (rest5.drop 12) (by rw [List.length_drop]; omega)]
            simp [readU32_eq_none (rest5.drop 16) (by rw [List.length_drop]; omega)]
  · intro hn hlen
    simp only [PBOHeader.read, readCString_append _ _ hn]
    simp [readU32_eq_some tail (by omega),
      readU32_eq_some (tail.drop 4) (by rw [List.length_drop]; omega),
      readU32_eq_some (tail.drop 8) (by rw [List.length_drop]; omega),
      readU32_eq_some (tail.drop 12) (by rw [List.length_drop]; omega),
      readU32_eq_some (tail.drop 16) (by rw [List.length_drop]; omega)]

/-- C3, witness: the decode contract at a NUL-free two-byte stream, at name
`[7]` with a three-byte remainder, and at name `[7]` with a twenty-byte
remainder. -/
theorem PBOHeader.read_contract_witness :
    PBOHeader.read [1, 2] = none ∧
    PBOHeader.read ([7] ++ 0 :: [1, 2, 3]) = none ∧
    PBOHeader.read
        ([7] ++ 0 :: [1, 2, 3, 4, 5, 6, 7, 8, 9, 10, 11, 12, 13, 14, 15, 16, 17, 18, 19, 20]) =
      some (⟨[7],
        leVal [1, 2, 3, 4, 5, 6, 7, 8, 9, 10, 11, 12, 13, 14, 15, 16, 17, 18, 19, 20],
        leVal (List.drop 4 [1, 2, 3, 4, 5, 6, 7, 8, 9, 10, 11, 12, 13, 14, 15, 16, 17, 18, 19, 20]),
        leVal (List.drop 8 [1, 2, 3, 4, 5, 6, 7, 8, 9, 10, 11, 12, 13, 14, 15, 16, 17, 18, 19, 20]),
        leVal (List.drop 12 [1, 2, 3, 4, 5, 6, 7, 8, 9, 10, 11, 12, 13, 14, 15, 16, 17, 18, 19, 20]),
        leVal (List.drop 16 [1, 2, 3, 4, 5, 6, 7, 8, 9, 10, 11, 12, 13, 14, 15, 16, 17, 18, 19, 20])⟩,
        List.drop 20 [1, 2, 3, 4, 5, 6, 7, 8, 9, 10, 11, 12, 13, 14, 15, 16, 17, 18, 19, 20]) :=
  ⟨(PBOHeader.read_contract [1, 2] [7]
      [1, 2, 3, 4, 5, 6, 7, 8, 9, 10, 11, 12, 13, 14, 15, 16, 17, 18, 19, 20] [1, 2, 3]).1
      (by decide),
   (PBOHeader.read_contract [1, 2] [7]
      [1, 2, 3, 4, 5, 6, 7, 8, 9, 10, 11, 12, 13, 14, 15, 16, 17, 18, 19, 20] [1, 2, 3]).2.1
      (by decide) (by decide),
   (PBOHeader.read_contract [1, 2] [7]
      [1, 2, 3, 4, 5, 6, 7, 8, 9, 10, 11, 12, 13, 14, 15, 16, 17, 18, 19, 20] [1, 2, 3]).2.2
      (by decide) (by decide)⟩

/-! ### Content hash -/

theorem rustSplit_ne_nil (c : Nat) (l : List Nat) : rustSplit c l ≠ [] := by
  cases l with
  | nil => simp [rustSplit]
  | cons b bs =>
    by_cases hb : b = c
    · simp [rustSplit, hb]
    · simp only [rustSplit, if_neg hb]
      cases rustSplit c bs <;> simp

theorem rustSplit_no_sep (c : Nat) (l : List Nat) (h : c ∉ l) : rustSplit c l = [l] := by
  induction l with
  | nil => rfl
  | cons b bs ih =>
    have hb : ¬b = c := fun hb => h (by simp [hb])
    have := ih (fun hm => h (List.mem_cons_of_mem _ hm))
    simp [rustSplit, if_neg hb, this]

theorem rustSplit_mem_length (c : Nat) (l : List Nat) (h : c ∈ l) :
    2 ≤ (rustSplit c l).length := by
  induction l with
  | nil => simp at h
  | cons b bs ih =>
    by_cases hb : b = c
    · have h1 := rustSplit_ne_nil c bs
      simp only [rustSplit, if_pos hb, List.length_cons]
      cases hbs : rustSplit c bs
      · exact absurd hbs h1
      · simp
    · have hm : c ∈ bs := by
        rcases List.mem_cons.mp h with h' | h'
        · exact absurd h'.symm hb
        · exact h'
      have := ih hm
      simp only [rustSplit, if_neg hb]
      cases hbs : rustSplit c bs
      · exact absurd hbs (rustSplit_ne_nil c bs)
      · rw [hbs] at this; simpa using this

theorem lastSeg_cons (x : List Nat) (l : List (List Nat)) (h : l ≠ []) :
    lastSeg (x :: l) = lastSeg l := by
  cases l with
  | nil => exact absurd rfl h
  | cons y ys => rfl

theorem lastSeg_after_last (c : Nat) (pre ext : List Nat) (h : c ∉ ext) :
    lastSeg (rustSplit c (pre ++ c :: ext)) = ext := by
  induction pre with
  | nil =>
    simp only [List.nil_append, rustSplit, if_pos rfl, rustSplit_no_sep c ext h]
    rfl
  | cons b bs ih =>
    have hmem : c ∈ bs ++ c :: ext := by simp
    have hlen := rustSplit_mem_length c _ hmem
    by_cases hb : b = c
    · rw [List.cons_append]
      simp only [rustSplit, if_pos hb]
      rw [lastSeg_cons _ _ (rustSplit_ne_nil c _)]
      exact ih
    · rw [List.cons_append]
      simp only [rustSplit, if_neg hb]
      cases hbs : rustSplit c (bs ++ c :: ext) with
      | nil => exact absurd hbs (rustSplit_ne_nil c _)
      | cons seg segs =>
        rw [hbs] at hlen
        have hsegs : segs ≠ [] := by
          cases segs
          · simp at hlen
          · simp
        rw [lastSeg_cons _ _ hsegs, ← lastSeg_cons seg segs hsegs, ← hbs]
        exact ih

theorem filehash_foldl (l : List (List Nat × List Nat)) (acc : List Nat) (b : Bool) :
    l.foldl (fun acc p => if hashExcluded p.1 then acc else (acc.1 ++ p.2, false)) (acc, b) =
      (acc ++ concatMap Prod.snd (l.filter fun p => !hashExcluded p.1),
       b && l.all fun p => hashExcluded p.1) := by
  induction l generalizing acc b with
  | nil => simp [concatMap]
  | cons p ps ih =>
    by_cases hp : hashExcluded p.1
    · simp [hp, ih, concatMap]
    · simp [hp, ih, concatMap]

/-- C7 (confirmed): the bytes fed to the content-hash digest are exactly the
concatenated raw contents of the entries whose extension is not denylisted,
in container iteration order; when the container is empty or every entry is
denylisted, the fixed placeholder `nothing` is fed instead, so a container
holding only a single `texture.paa` entry feeds the same bytes — hence
yields the same SHA-1 content hash — as an empty container. -/
theorem filehashInput_denylist (pbo : PBO) (c : List Nat) :
    (pbo.files.all (fun p => hashExcluded p.1) = true → pbo.filehashInput = nothingBytes) ∧
    (¬ pbo.files.all (fun p => hashExcluded p.1) = true →
      pbo.filehashInput = concatMap Prod.snd (pbo.files.filter fun p => !hashExcluded p.1)) ∧
    PBO.filehashInput ⟨[([116, 101, 120, 116, 117, 114, 101, 46, 112, 97, 97], c)], [], [], none⟩ =
      PBO.filehashInput ⟨[], [], [], none⟩ := by
  have key : ∀ q : PBO, q.filehashInput =
      (if q.files.all (fun p => hashExcluded p.1) then nothingBytes
       else concatMap Prod.snd (q.files.filter fun p => !hashExcluded p.1)) := by
    intro q
    show (let r := q.files.foldl (fun acc p => if hashExcluded p.1 then acc else (acc.1 ++ p.2, false)) ([], true); if r.2 then nothingBytes else r.1) = _
    rw [show (([], true) : List Nat × Bool) = (([] : List Nat), true) from rfl]
    simp only [filehash_foldl, List.nil_append, Bool.true_and]
  refine ⟨?_, ?_, ?_⟩
  · intro h; rw [key, if_pos h]
  · intro h; rw [key, if_neg h]
  · have h1 : hashExcluded [116, 101, 120, 116, 117, 114, 101, 46, 112, 97, 97] = true := by
      decide
    rw [key, key]
    simp [h1]

/-- C7, witness: the placeholder case applied to a container holding only
`texture.paa`, and the concatenation case applied to a container holding one
entry named `a`. -/
theorem filehashInput_denylist_witness :
    PBO.filehashInput ⟨[([116, 101, 120, 116, 117, 114, 101, 46, 112, 97, 97], [5])], [], [], none⟩ =
      nothingBytes ∧
    PBO.filehashInput ⟨[([97], [9])], [], [], none⟩ =
      concatMap Prod.snd
        (List.filter (fun p => !hashExcluded p.1) [([97], [9])]) :=
  ⟨(filehashInput_denylist
      ⟨[([116, 101, 120, 116, 117, 114, 101, 46, 112, 97, 97], [5])], [], [], none⟩ []).1
      (by decide),
   (filehashInput_denylist ⟨[([97], [9])], [], [], none⟩ []).2.1 (by decide)⟩

/-- C9 (confirmed): the content-hash denylist test keys on the byte segment
after the last `.` of the filename (the whole name when it has no dot) and
compares byte-for-byte, hence case-sensitively: the entry `TEXTURE.PAA`
contributes its raw bytes to the digest input while `texture.paa` is
excluded (placeholder input). -/
theorem hashExcluded_last_extension (name ext0 pre c : List Nat) :
    (46 ∉ name → (hashExcluded name = true ↔ name ∈ denyExts)) ∧
    (46 ∉ ext0 → name = pre ++ 46 :: ext0 → (hashExcluded name = true ↔ ext0 ∈ denyExts)) ∧
    PBO.filehashInput ⟨[([84, 69, 88, 84, 85, 82, 69, 46, 80, 65, 65], c)], [], [], none⟩ = c ∧
    PBO.filehashInput ⟨[([116, 101, 120, 116, 117, 114, 101, 46, 112, 97, 97], c)], [], [], none⟩ =
      nothingBytes := by
  refine ⟨?_, ?_, ?_, ?_⟩
  · intro h
    simp only [hashExcluded, rustSplit_no_sep 46 name h]
    simp [denyExts, lastSeg, or_assoc]
  · intro hx hname
    subst hname
    simp only [hashExcluded, lastSeg_after_last 46 pre ext0 hx]
    simp [denyExts, or_assoc]
  · have h1 : hashExcluded [84, 69, 88, 84, 85, 82, 69, 46, 80, 65, 65] = false := by decide
    simp [PBO.filehashInput, h1]
  · have h1 : hashExcluded [116, 101, 120, 116, 117, 114, 101, 46, 112, 97, 97] = true := by
      decide
    simp [PBO.filehashInput, h1]

/-- C9, witness: the dot-free case at name `ab` and the last-extension case
at name `x.paa`. -/
theorem hashExcluded_last_extension_witness :
    (hashExcluded [97, 98] = true ↔ [97, 98] ∈ denyExts) ∧
    (hashExcluded [120, 46, 112, 97, 97] = true ↔ [112, 97, 97] ∈ denyExts) :=
  ⟨(hashExcluded_last_extension [97, 98] [] [] []).1 (by decide),
   (hashExcluded_last_extension [120, 46, 112, 97, 97] [112, 97, 97] [120] []).2.1
      (by decide) (by decide)⟩

/-! ### Directory packer: the `$PBOPREFIX$` branch -/

theorem rustSplit_head (c : Nat) (l : List Nat) :
    (rustSplit c l).headD [] = l.takeWhile fun b => decide (b ≠ c) := by
  induction l with
  | nil => rfl
  | cons b bs ih =>
    by_cases hb : b = c
    · simp [rustSplit, hb, List.takeWhile]
    · simp only [rustSplit, if_neg hb]
      cases hbs : rustSplit c bs with
      | nil => exact absurd hbs (rustSplit_ne_nil c bs)
      | cons seg segs =>
        rw [hbs] at ih
        simp only [List.headD] at ih ⊢
        simp [List.takeWhile, hb, ih]

theorem rustSplit_second (c : Nat) (l : List Nat) (h : c ∈ l) :
    (rustSplit c l).tail.headD [] =
      ((l.dropWhile fun b => decide (b ≠ c)).drop 1).takeWhile fun b => decide (b ≠ c) := by
  induction l with
  | nil => simp at h
  | cons b bs ih =>
    by_cases hb : b = c
    · subst hb
      have hs : rustSplit b (b :: bs) = [] :: rustSplit b bs := by simp [rustSplit]
      rw [hs, List.tail_cons, rustSplit_head]
      simp [List.dropWhile]
    · have hm : c ∈ bs := by
        rcases List.mem_cons.mp h with h' | h'
        · exact absurd h'.symm hb
        · exact h'
      simp only [rustSplit, if_neg hb]
      cases hbs : rustSplit c bs with
      | nil => exact absurd hbs (rustSplit_ne_nil c bs)
      | cons seg segs =>
        rw [hbs] at ih
        simp only [List.tail_cons] at ih ⊢
        rw [ih hm]
        simp [List.dropWhile, hb]

theorem assocLookup_append_ne (k' k : List Nat) (v : List Nat) (m : List (List Nat × List Nat))
    (h : k' ≠ k) : assocLookup k' (m ++ [(k, v)]) = assocLookup k' m := by
  induction m with
  | nil =>
    simp only [List.nil_append, assocLookup, if_neg (fun hh : k = k' => h hh.symm)]
  | cons p ps ih =>
    by_cases hp : p.1 = k'
    · simp [assocLookup, hp]
    · simp only [List.cons_append, assocLookup, if_neg hp, List.append_eq, ih]

theorem assocLookup_map_update (m : List (List Nat × List Nat)) (k v k' : List Nat)
    (h : k' ≠ k) :
    assocLookup k' (m.map fun p => if p.1 = k then (k, v) else p) = assocLookup k' m := by
  induction m with
  | nil => rfl
  | cons p ps ih =>
    by_cases hp : p.1 = k
    · have hp' : ¬(k = k') := fun hh => h hh.symm
      have hp2 : ¬(p.1 = k') := by rw [hp]; exact hp'
      simp only [List.map_cons, if_pos hp, assocLookup, if_neg hp', if_neg hp2, ih]
    · by_cases hq : p.1 = k'
      · simp only [List.map_cons, if_neg hp, assocLookup, if_pos hq]
      · simp only [List.map_cons, if_neg hp, assocLookup, if_neg hq, ih]

theorem assocLookup_lhmInsert_ne (m : List (List Nat × List Nat)) (k v k' : List Nat)
    (h : k' ≠ k) : assocLookup k' (lhmInsert m k v) = assocLookup k' m := by
  unfold lhmInsert
  split
  · exact assocLookup_map_update m k v k' h
  · exact assocLookup_append_ne k' k v m h

theorem packLoop_no_prefix (compile : List Nat → List Nat) (excludes : List (List Nat)) :
    ∀ (entries files exts : List (List Nat × List Nat)) (files' exts' : List (List Nat × List Nat)),
    packLoop compile excludes entries files exts = some (files', exts') →
    assocLookup pboPrefixName files = none → assocLookup pboPrefixName files' = none := by
  intro entries
  induction entries with
  | nil =>
    intro files exts files' exts' h h0
    simp only [packLoop, Option.some.injEq, Prod.mk.injEq] at h
    rw [← h.1]
    exact h0
  | cons e rest ih =>
    intro files exts files' exts' h h0
    obtain ⟨name, content⟩ := e
    simp only [packLoop] at h
    cases hfa : file_allowed name excludes with
    | none => rw [hfa] at h; exact absurd h (by simp)
    | some b =>
      rw [hfa] at h
      cases b with
      | false => exact ih _ _ _ _ h h0
      | true =>
        simp only at h
        by_cases h1 : name = pboPrefixName
        · rw [if_pos h1] at h
          exact ih _ _ _ _ h h0
        · rw [if_neg h1] at h
          by_cases h2 : name = configCpp
          · rw [if_pos h2] at h
            refine ih _ _ _ _ h ?_
            rw [assocLookup_lhmInsert_ne _ _ _ _ (by decide)]
            exact h0
          · rw [if_neg h2] at h
            refine ih _ _ _ _ h ?_
            rw [assocLookup_lhmInsert_ne _ _ _ _ (fun hh => h1 hh.symm)]
            exact h0

theorem prefixLine_eq (exts : List (List Nat × List Nat)) (l : List Nat) :
    prefixLine exts l =
      if 61 ∈ l then
        lhmInsert exts (l.takeWhile fun b => decide (b ≠ 61))
          (((l.dropWhile fun b => decide (b ≠ 61)).drop 1).takeWhile fun b => decide (b ≠ 61))
      else lhmInsert exts prefixKey l := by
  by_cases h : 61 ∈ l
  · have hlen := rustSplit_mem_length 61 l h
    have hne : ¬(rustSplit 61 l).length = 1 := by omega
    rw [if_pos h]
    simp only [prefixLine, if_neg hne]
    rw [rustSplit_head, rustSplit_second 61 l h]
  · have : rustSplit 61 l = [l] := rustSplit_no_sep 61 l h
    rw [if_neg h]
    simp [prefixLine, this]

theorem prefixLineLoop_eq (lines : List (List Nat)) (exts : List (List Nat × List Nat)) :
    prefixLineLoop exts lines =
      List.foldl prefixLine exts (lines.takeWhile fun l0 => !decide (l0.length = 0)) := by
  induction lines generalizing exts with
  | nil => rfl
  | cons l ls ih =>
    by_cases hl : l.length = 0
    · simp [prefixLineLoop, hl, List.takeWhile]
    · simp only [prefixLineLoop, if_neg hl, ih, List.takeWhile]
      simp [hl]

/-- C4, counterexample: a `$PBOPREFIX$` file whose single line is `a=b=c`
produces the metadata pair `a → b`, not `a → b=c` as the claim states: Rust's
`split("=")` cuts at every `'='` and the source keeps only the first two
segments, so everything after the second `'='` is dropped. -/
theorem prefix_split_counterexample :
    fromFileList id [100]
        [([36, 80, 66, 79, 80, 82, 69, 70, 73, 88, 36], [97, 61, 98, 61, 99])] [] =
      some ⟨[], [([97], [98]), ([112, 114, 101, 102, 105, 120], [100])], [], none⟩ ∧
    ([98] : List Nat) ≠ [98, 61, 99] :=
  ⟨by decide, by decide⟩

/-- C4 (amended): when packing a directory the `$PBOPREFIX$` file is never
stored as an entry; its content is split on newlines and processed line by
line up to the first empty line; a line with no `=` sets the `prefix`
metadata key to the whole line; and a line containing `=` is split at every
`=`, the key being the part before the first `=` and the value the part
between the first and the second `=` (text after a second `=` is
dropped). -/
theorem fromFileList_prefix_contract (compile : List Nat → List Nat) (dirname : List Nat)
    (entries : List (List Nat × List Nat)) (excludes : List (List Nat)) (pbo : PBO)
    (lines : List (List Nat)) (l : List Nat) (exts : List (List Nat × List Nat)) :
    (fromFileList compile dirname entries excludes = some pbo →
      assocLookup pboPrefixName pbo.files = none) ∧
    (prefixLineLoop exts lines =
      List.foldl prefixLine exts (lines.takeWhile fun l0 => !decide (l0.length = 0))) ∧
    (prefixLine exts l =
      if 61 ∈ l then
        lhmInsert exts (l.takeWhile fun b => decide (b ≠ 61))
          (((l.dropWhile fun b => decide (b ≠ 61)).drop 1).takeWhile fun b => decide (b ≠ 61))
      else lhmInsert exts prefixKey l) := by
  refine ⟨?_, prefixLineLoop_eq lines exts, prefixLine_eq exts l⟩
  intro h
  simp only [fromFileList] at h
  cases hp : packLoop compile excludes entries [] [] with
  | none => rw [hp] at h; exact absurd h (by simp)
  | some fe =>
    rw [hp] at h
    obtain ⟨files0, exts0⟩ := fe
    simp only [Option.some.injEq] at h
    have hf : pbo.files = files0 := by rw [← h]
    rw [hf]
    exact packLoop_no_prefix compile excludes entries [] [] files0 exts0 hp rfl

/-- C4, witness: the no-`$PBOPREFIX$`-entry part applied to packing a
one-file directory. -/
theorem fromFileList_prefix_contract_witness :
    assocLookup pboPrefixName
      (PBO.files ⟨[([97], [98])], [([112, 114, 101, 102, 105, 120], [100])], [], none⟩) = none :=
  (fromFileList_prefix_contract id [100] [([97], [98])] []
      ⟨[([97], [98])], [([112, 114, 101, 102, 105, 120], [100])], [], none⟩ [] [] []).1
    (by decide)

/-! ### Reader loops -/

theorem readCString_le (l : List Nat) : (readCString l).2.length ≤ l.length := by
  rcases readCString_length l with h | ⟨h, -⟩
  · exact Nat.le_of_lt h
  · rw [h]; exact Nat.zero_le _

theorem readCString_lt (l : List Nat) (h : (readCString l).1 ≠ []) :
    (readCString (readCString l).2).2.length < l.length := by
  rcases readCString_length l with h1 | ⟨h1, h2⟩
  · exact Nat.lt_of_le_of_lt (readCString_le _) h1
  · rw [h1]
    have : l ≠ [] := fun hh => h (by rw [← h2, hh]; rfl)
    have : 0 < l.length := List.length_pos.mpr this
    simpa [readCString] using this

theorem readExtLoopF_length : ∀ (fuel : Nat) (input : List Nat)
    (exts : List (List Nat × List Nat)),
    (readExtLoopF fuel input exts).2.length ≤ input.length := by
  intro fuel
  induction fuel with
  | zero => intro input exts; exact Nat.le_refl _
  | succ fuel ih =>
    intro input exts
    simp only [readExtLoopF]
    split
    · exact readCString_le input
    next hne =>
      refine (ih _ _).trans ?_
      refine (readCString_le _).trans ?_
      exact readCString_le input

theorem readExtLoopF_congr : ∀ (f1 f2 : Nat) (input : List Nat)
    (exts : List (List Nat × List Nat)), input.length < f1 → input.length < f2 →
    readExtLoopF f1 input exts = readExtLoopF f2 input exts := by
  intro f1
  induction f1 with
  | zero => intro f2 input exts h1; exact absurd h1 (Nat.not_lt_zero _)
  | succ f1 ih =>
    intro f2 input exts h1 h2
    match f2, h2 with
    | f2 + 1, h2 =>
      simp only [readExtLoopF]
      split
      · rfl
      next hne =>
        have hlt : (readCString (readCString input).2).2.length < input.length := by
          refine readCString_lt input ?_
          intro hh
          rw [hh] at hne
          simp at hne
        exact ih f2 _ _ (by omega) (by omega)

theorem readExtLoop_length (input : List Nat) (exts : List (List Nat × List Nat)) :
    (readExtLoop input exts).2.length ≤ input.length :=
  readExtLoopF_length _ input exts

theorem readExtLoop_stop (input : List Nat) (exts : List (List Nat × List Nat))
    (h : (readCString input).1 = []) :
    readExtLoop input exts = (exts, (readCString input).2) := by
  simp only [readExtLoop, readExtLoopF, h]
  simp

theorem readExtLoop_step (input : List Nat) (exts : List (List Nat × List Nat))
    (h : (readCString input).1 ≠ []) :
    readExtLoop input exts =
      readExtLoop (readCString (readCString input).2).2
        (lhmInsert exts (readCString input).1 (readCString (readCString input).2).1) := by
  have hlt := readCString_lt input h
  have hmid : readExtLoop input exts =
      readExtLoopF input.length (readCString (readCString input).2).2
        (lhmInsert exts (readCString input).1 (readCString (readCString input).2).1) := by
    simp only [readExtLoop, readExtLoopF]
    rw [if_neg (by simpa using h)]
  rw [hmid]
  show readExtLoopF input.length (readCString (readCString input).2).2
      (lhmInsert exts (readCString input).1 (readCString (readCString input).2).1) =
    readExtLoopF ((readCString (readCString input).2).2.length + 1)
      (readCString (readCString input).2).2
      (lhmInsert exts (readCString input).1 (readCString (readCString input).2).1)
  refine readExtLoopF_congr _ _ _ _ ?_ ?_ <;> omega
theorem readLoopF_congr : ∀ (f1 f2 : Nat) (input : List Nat) (first : Bool)
    (hs : List PBOHeader) (exts : List (List Nat × List Nat)),
    input.length < f1 → input.length < f2 →
    readLoopF f1 input first hs exts = readLoopF f2 input first hs exts := by
  intro f1
  induction f1 with
  | zero => intro f2 input first hs exts h1; exact absurd h1 (Nat.not_lt_zero _)
  | succ f1 ih =>
    intro f2 input first hs exts h1 h2
    match f2, h2 with
    | f2 + 1, h2 =>
      simp only [readLoopF]
      cases hr : PBOHeader.read input with
      | none => rfl
      | some pr =>
        obtain ⟨header, rest⟩ := pr
        have hlen := PBOHeader.read_length input header rest hr
        dsimp only
        split
        · split
          · have hext := readExtLoop_length rest exts
            exact ih f2 _ _ _ _ (by omega) (by omega)
          · rfl
        · split
          · rfl
          · exact ih f2 _ _ _ _ (by omega) (by omega)

theorem readLoop_fail (input : List Nat) (first : Bool) (hs : List PBOHeader)
    (exts : List (List Nat × List Nat)) (h : PBOHeader.read input = none) :
    readLoop input first hs exts = .ioError := by
  simp [readLoop, readLoopF, h]

theorem readLoop_push (input rest : List Nat) (hd : PBOHeader) (first : Bool)
    (hs : List PBOHeader) (exts : List (List Nat × List Nat))
    (h : PBOHeader.read input = some (hd, rest)) (h1 : hd.packing_method ≠ 0x56657273)
    (h2 : hd.filename ≠ []) :
    readLoop input first hs exts = readLoop rest false (hs ++ [hd]) exts := by
  have hlen := PBOHeader.read_length input hd rest h
  have hmid : readLoop input first hs exts = readLoopF input.length rest false (hs ++ [hd]) exts := by
    simp only [readLoop, readLoopF, h]
    rw [if_neg h1, if_neg h2]
  rw [hmid]
  show readLoopF input.length rest false (hs ++ [hd]) exts =
    readLoopF (rest.length + 1) rest false (hs ++ [hd]) exts
  refine readLoopF_congr _ _ _ _ _ _ ?_ ?_ <;> omega

theorem readLoop_term (input rest : List Nat) (hd : PBOHeader) (first : Bool)
    (hs : List PBOHeader) (exts : List (List Nat × List Nat))
    (h : PBOHeader.read input = some (hd, rest)) (h1 : hd.packing_method ≠ 0x56657273)
    (h2 : hd.filename = []) :
    readLoop input first hs exts = .done hs exts rest := by
  simp only [readLoop, readLoopF, h]
  rw [if_neg h1, if_pos h2]

theorem readLoop_sent_first (input rest : List Nat) (hd : PBOHeader)
    (hs : List PBOHeader) (exts : List (List Nat × List Nat))
    (h : PBOHeader.read input = some (hd, rest)) (h1 : hd.packing_method = 0x56657273) :
    readLoop input true hs exts =
      readLoop (readExtLoop rest exts).2 false hs (readExtLoop rest exts).1 := by
  have hlen := PBOHeader.read_length input hd rest h
  have hext := readExtLoop_length rest exts
  have hmid : readLoop input true hs exts =
      readLoopF input.length (readExtLoop rest exts).2 false hs (readExtLoop rest exts).1 := by
    simp only [readLoop, readLoopF, h]
    rw [if_pos h1]
    simp
  rw [hmid]
  show readLoopF input.length (readExtLoop rest exts).2 false hs (readExtLoop rest exts).1 =
    readLoopF ((readExtLoop rest exts).2.length + 1) (readExtLoop rest exts).2 false hs
      (readExtLoop rest exts).1
  refine readLoopF_congr _ _ _ _ _ _ ?_ ?_ <;> omega

theorem readLoop_sent_later (input rest : List Nat) (hd : PBOHeader)
    (hs : List PBOHeader) (exts : List (List Nat × List Nat))
    (h : PBOHeader.read input = some (hd, rest)) (h1 : hd.packing_method = 0x56657273) :
    readLoop input false hs exts = .panicked := by
  simp only [readLoop, readLoopF, h]
  rw [if_pos h1]
  simp
theorem readExtLoop_pairs (ps : List (List Nat × List Nat)) (rest : List Nat)
    (acc : List (List Nat × List Nat))
    (hps : ∀ p ∈ ps, p.1 ≠ [] ∧ 0 ∉ p.1 ∧ 0 ∉ p.2) :
    readExtLoop (concatMap extPairBytes ps ++ 0 :: rest) acc =
      (ps.foldl (fun m p => lhmInsert m p.1 p.2) acc, rest) := by
  induction ps generalizing acc with
  | nil =>
    rw [show concatMap extPairBytes [] ++ 0 :: rest = 0 :: rest from by simp [concatMap]]
    rw [readExtLoop_stop _ _ (by simp [readCString])]
    simp [readCString]
  | cons p ps ih =>
    obtain ⟨hne, hk, hv⟩ := hps p (List.mem_cons_self _ _)
    have hbytes : concatMap extPairBytes (p :: ps) ++ 0 :: rest =
        p.1 ++ 0 :: (p.2 ++ 0 :: (concatMap extPairBytes ps ++ 0 :: rest)) := by
      simp [concatMap, extPairBytes, List.append_assoc]
    rw [hbytes, readExtLoop_step _ _ (by rw [readCString_append _ _ hk]; simpa using hne)]
    rw [readCString_append _ _ hk]
    dsimp only
    rw [readCString_append _ _ hv]
    dsimp only
    rw [ih _ (fun q hq => hps q (List.mem_cons_of_mem _ hq))]
    simp [List.foldl]

theorem readLoop_headers (ehs : List PBOHeader) (rest : List Nat) (hs : List PBOHeader)
    (exts : List (List Nat × List Nat))
    (hgood : ∀ h ∈ ehs, goodHeader h ∧ h.packing_method ≠ 0x56657273 ∧ h.filename ≠ []) :
    readLoop (concatMap PBOHeader.encode ehs ++ rest) false hs exts =
      readLoop rest false (hs ++ ehs) exts := by
  induction ehs generalizing hs with
  | nil => simp [concatMap]
  | cons hd ehs ih =>
    obtain ⟨⟨hn, h1, h2, h3, h4, h5⟩, hm, hf⟩ := hgood hd (List.mem_cons_self _ _)
    have hb : concatMap PBOHeader.encode (hd :: ehs) ++ rest =
        PBOHeader.encode hd ++ (concatMap PBOHeader.encode ehs ++ rest) := by
      simp [concatMap, List.append_assoc]
    rw [hb, readLoop_push _ _ hd false hs exts
        (PBOHeader.read_encode hd _ hn h1 h2 h3 h4 h5) hm hf]
    rw [ih _ (fun q hq => hgood q (List.mem_cons_of_mem _ hq))]
    simp
/-- C10 (confirmed): in the header loop of `read`, any decoded header whose
packing method is not the sentinel and whose filename is empty terminates
the header section regardless of its packing-method value; a header whose
packing method is the sentinel is never treated as the terminator even
though its filename may be empty: on the first iteration it switches to
metadata parsing and the loop continues, and on any later iteration it
panics. -/
theorem readLoop_terminator_contract (input rest : List Nat) (hd : PBOHeader) (first : Bool)
    (hs : List PBOHeader) (exts : List (List Nat × List Nat))
    (h : PBOHeader.read input = some (hd, rest)) :
    (hd.packing_method ≠ 0x56657273 → hd.filename = [] →
      readLoop input first hs exts = .done hs exts rest) ∧
    (hd.packing_method = 0x56657273 → first = true →
      readLoop input first hs exts =
        readLoop (readExtLoop rest exts).2 false hs (readExtLoop rest exts).1) ∧
    (hd.packing_method = 0x56657273 → first = false →
      readLoop input first hs exts = .panicked) := by
  refine ⟨fun h1 h2 => readLoop_term _ _ _ _ _ _ h h1 h2, fun h1 hf => ?_, fun h1 hf => ?_⟩
  · subst hf; exact readLoop_sent_first _ _ _ _ _ h h1
  · subst hf; exact readLoop_sent_later _ _ _ _ _ h h1

/-- C10, witness: a terminator header with packing method 7 ends the loop,
and a sentinel header after the first position panics. -/
theorem readLoop_terminator_contract_witness :
    readLoop [0, 7, 0, 0, 0, 0, 0, 0, 0, 0, 0, 0, 0, 0, 0, 0, 0, 0, 0, 0, 0] true [] [] =
      .done [] [] [] ∧
    readLoop [0, 115, 114, 101, 86, 0, 0, 0, 0, 0, 0, 0, 0, 0, 0, 0, 0, 0, 0, 0, 0] false [] [] =
      .panicked :=
  ⟨(readLoop_terminator_contract [0, 7, 0, 0, 0, 0, 0, 0, 0, 0, 0, 0, 0, 0, 0, 0, 0, 0, 0, 0, 0]
      [] ⟨[], 7, 0, 0, 0, 0⟩ true [] [] (by decide)).1 (by decide) (by decide),
   (readLoop_terminator_contract [0, 115, 114, 101, 86, 0, 0, 0, 0, 0, 0, 0, 0, 0, 0, 0, 0, 0, 0, 0, 0]
      [] ⟨[], 0x56657273, 0, 0, 0, 0⟩ false [] [] (by decide)).2.2 (by decide) (by decide)⟩

/-- C5 (amended): for every input stream in which a header with the sentinel
packing method `0x56657273` appears after the first header position, `read`
aborts by panicking (`unreachable!`, a process crash), not by returning an
error result to the caller. -/
theorem read_late_sentinel_panics (hs : List PBOHeader) (hsent : PBOHeader) (rest : List Nat)
    (hne : hs ≠ [])
    (hgood : ∀ h ∈ hs, goodHeader h ∧ h.packing_method ≠ 0x56657273 ∧ h.filename ≠ [])
    (hgs : goodHeader hsent) (hm : hsent.packing_method = 0x56657273) :
    PBO.read (concatMap PBOHeader.encode hs ++ PBOHeader.encode hsent ++ rest) = .panicked := by
  obtain ⟨hn, h1, h2, h3, h4, h5⟩ := hgs
  have aux : ∀ (l : List PBOHeader) (acc : List PBOHeader)
      (ex : List (List Nat × List Nat)),
      (∀ h ∈ l, goodHeader h ∧ h.packing_method ≠ 0x56657273 ∧ h.filename ≠ []) →
      readLoop (concatMap PBOHeader.encode l ++ PBOHeader.encode hsent ++ rest) false acc ex =
        .panicked := by
    intro l
    induction l with
    | nil =>
      intro acc ex hg
      rw [show concatMap PBOHeader.encode [] ++ PBOHeader.encode hsent ++ rest =
          PBOHeader.encode hsent ++ rest from by simp [concatMap]]
      exact readLoop_sent_later _ _ _ _ _ (PBOHeader.read_encode hsent _ hn h1 h2 h3 h4 h5) hm
    | cons hd l ih =>
      intro acc ex hg
      obtain ⟨⟨gn, g1, g2, g3, g4, g5⟩, gm, gf⟩ := hg hd (List.mem_cons_self _ _)
      have hb : concatMap PBOHeader.encode (hd :: l) ++ PBOHeader.encode hsent ++ rest =
          PBOHeader.encode hd ++ (concatMap PBOHeader.encode l ++ PBOHeader.encode hsent ++ rest) := by
        simp [concatMap, List.append_assoc]
      rw [hb, readLoop_push _ _ hd false acc ex
          (PBOHeader.read_encode hd _ gn g1 g2 g3 g4 g5) gm gf]
      exact ih _ _ (fun q hq => hg q (List.mem_cons_of_mem _ hq))
  match hs, hne with
  | h0 :: hs', _ =>
    obtain ⟨⟨gn, g1, g2, g3, g4, g5⟩, gm, gf⟩ := hgood h0 (List.mem_cons_self _ _)
    have hb : concatMap PBOHeader.encode (h0 :: hs') ++ PBOHeader.encode hsent ++ rest =
        PBOHeader.encode h0 ++ (concatMap PBOHeader.encode hs' ++ PBOHeader.encode hsent ++ rest) := by
      simp [concatMap, List.append_assoc]
    have key : readLoop (concatMap PBOHeader.encode (h0 :: hs') ++ PBOHeader.encode hsent ++ rest)
        true [] [] = .panicked := by
      rw [hb, readLoop_push _ _ h0 true [] []
          (PBOHeader.read_encode h0 _ gn g1 g2 g3 g4 g5) gm gf]
      exact aux hs' [h0] [] (fun q hq => hgood q (List.mem_cons_of_mem _ hq))
    rw [List.append_assoc] at key
    simp [PBO.read, key]

/-- C5, counterexample: on a stream holding one ordinary header followed by
a sentinel header, `read` panics — it does not return an error result as
the claim states (`panicked`, distinct from the `ioError` an `Err` return
produces). -/
theorem read_late_sentinel_counterexample :
    PBO.read ([97, 0, 0, 0, 0, 0, 0, 0, 0, 0, 0, 0, 0, 0, 0, 0, 0, 0, 0, 0, 0, 0] ++
        [0, 115, 114, 101, 86, 0, 0, 0, 0, 0, 0, 0, 0, 0, 0, 0, 0, 0, 0, 0, 0]) =
      .panicked ∧
    ReadResult.panicked ≠ ReadResult.ioError :=
  ⟨by decide, by decide⟩

/-- C5, witness: the amended theorem applied to one ordinary header named
`a` followed by a bare sentinel header. -/
theorem read_late_sentinel_panics_witness :
    PBO.read (concatMap PBOHeader.encode [⟨[97], 0, 0, 0, 0, 0⟩] ++
        PBOHeader.encode ⟨[], 0x56657273, 0, 0, 0, 0⟩ ++ []) = .panicked :=
  read_late_sentinel_panics [⟨[97], 0, 0, 0, 0, 0⟩] ⟨[], 0x56657273, 0, 0, 0, 0⟩ []
    (by decide) (by decide) (by decide) (by decide)

/-! ### Writer sort order -/

theorem lexLt_asymm : ∀ a b : List Nat, lexLt a b = true → lexLt b a = false := by
  intro a
  induction a with
  | nil =>
    intro b h
    cases b with
    | nil => simp [lexLt] at h
    | cons c cs => simp [lexLt]
  | cons x xs ih =>
    intro b h
    cases b with
    | nil => simp [lexLt] at h
    | cons y ys =>
      simp only [lexLt] at h ⊢
      by_cases hxy : x < y
      · rw [if_neg (by omega), if_neg (by omega)]
      · rw [if_neg hxy] at h
        by_cases he : x = y
        · rw [if_pos he] at h
          subst he
          rw [if_neg (by omega), if_pos rfl]
          exact ih ys h
        · rw [if_neg he] at h
          cases h

theorem lexLt_trans : ∀ a b c : List Nat, lexLt a b = true → lexLt b c = true →
    lexLt a c = true := by
  intro a
  induction a with
  | nil =>
    intro b c hab hbc
    cases b with
    | nil => simp [lexLt] at hab
    | cons y ys =>
      cases c with
      | nil => simp [lexLt] at hbc
      | cons z zs => simp [lexLt]
  | cons x xs ih =>
    intro b c hab hbc
    cases b with
    | nil => simp [lexLt] at hab
    | cons y ys =>
      cases c with
      | nil => simp [lexLt] at hbc
      | cons z zs =>
        simp only [lexLt] at hab hbc ⊢
        by_cases hxy : x < y
        · rw [if_pos hxy] at hab
          by_cases hyz : y < z
          · rw [if_pos (by omega)]
          · rw [if_neg hyz] at hbc
            by_cases hez : y = z
            · rw [if_pos (by omega)]
            · rw [if_neg hez] at hbc; cases hbc
        · rw [if_neg hxy] at hab
          by_cases hex : x = y
          · rw [if_pos hex] at hab
            subst hex
            by_cases hyz : x < z
            · rw [if_pos hyz]
            · rw [if_neg hyz] at hbc ⊢
              by_cases hez : x = z
              · rw [if_pos hez] at hbc ⊢
                exact ih ys zs hab hbc
              · rw [if_neg hez] at hbc; cases hbc
          · rw [if_neg hex] at hab; cases hab

theorem lexLt_total : ∀ a b : List Nat, lexLt a b = false → a = b ∨ lexLt b a = true := by
  intro a
  induction a with
  | nil =>
    intro b h
    cases b with
    | nil => exact Or.inl rfl
    | cons c cs => simp [lexLt] at h
  | cons x xs ih =>
    intro b h
    cases b with
    | nil => exact Or.inr (by simp [lexLt])
    | cons y ys =>
      simp only [lexLt] at h ⊢
      by_cases hxy : x < y
      · rw [if_pos hxy] at h; cases h
      · rw [if_neg hxy] at h
        by_cases he : x = y
        · rw [if_pos he] at h
          subst he
          rcases ih ys h with h' | h'
          · exact Or.inl (by rw [h'])
          · refine Or.inr ?_
            rw [if_neg (by omega), if_pos rfl]
            exact h'
        · refine Or.inr ?_
          rw [if_pos (by omega)]

theorem insLow_eq_orderedInsert (x : List Nat × List Nat) (l : List (List Nat × List Nat)) :
    insLow x l =
      List.orderedInsert (fun p q => lexLt (lowercase q.1) (lowercase p.1) = false) x l := by
  induction l with
  | nil => rfl
  | cons y ys ih =>
    simp only [insLow, List.orderedInsert, ih]
    by_cases h : lexLt (lowercase y.1) (lowercase x.1) = true
    · rw [if_pos h, if_neg (by simp [h])]
    · have h' : lexLt (lowercase y.1) (lowercase x.1) = false := by simpa using h
      rw [if_neg (by simp [h']), if_pos h']

theorem foldr_insLow_eq (l : List (List Nat × List Nat)) :
    l.foldr insLow [] =
      List.insertionSort (fun p q => lexLt (lowercase q.1) (lowercase p.1) = false) l := by
  induction l with
  | nil => rfl
  | cons x xs ih => simp only [List.foldr, List.insertionSort, ih, insLow_eq_orderedInsert]

theorem sortedFiles_perm (pbo : PBO) : pbo.sortedFiles.Perm pbo.files := by
  rw [PBO.sortedFiles, foldr_insLow_eq]
  exact List.perm_insertionSort _ pbo.files

theorem sortedFiles_sorted (pbo : PBO) :
    List.Pairwise (fun p q => lexLt (lowercase q.1) (lowercase p.1) = false)
      pbo.sortedFiles := by
  rw [PBO.sortedFiles, foldr_insLow_eq]
  haveI : IsTotal (List Nat × List Nat)
      (fun p q => lexLt (lowercase q.1) (lowercase p.1) = false) := by
    constructor
    intro a b
    cases h : lexLt (lowercase b.1) (lowercase a.1)
    · exact Or.inl rfl
    · exact Or.inr (lexLt_asymm _ _ h)
  haveI : IsTrans (List Nat × List Nat)
      (fun p q => lexLt (lowercase q.1) (lowercase p.1) = false) := by
    constructor
    intro a b c hab hbc
    dsimp only at hab hbc ⊢
    cases hca : lexLt (lowercase c.1) (lowercase a.1)
    · rfl
    · rcases lexLt_total _ _ hbc with he | hlt
      · rw [← he] at hab
        rw [hca] at hab
        cases hab
      · have := lexLt_trans _ _ _ hlt hca
        rw [this] at hab
        cases hab
  exact List.sorted_insertionSort _ pbo.files
/-- C6 (amended): the entry headers emitted by `write` appear in ascending
(non-strict) case-insensitive filename order for every container and
insertion order — strictly ascending whenever no two filenames are
case-insensitively equal — each with packing method `0` and
`original_size = data_size =` the entry's content length reduced modulo
`2^32` (the `as u32` cast), followed by a terminating header with an empty
filename and packing method `0`. -/
theorem write_sorted_contract (pbo : PBO) (sha : List Nat → List Nat) :
    List.Pairwise (fun a b : PBOHeader => lexLt (lowercase b.filename) (lowercase a.filename) = false)
      pbo.entryHeaders ∧
    (List.Pairwise (fun p q : List Nat × List Nat => lowercase p.1 ≠ lowercase q.1) pbo.files →
      List.Pairwise (fun a b : PBOHeader => lexLt (lowercase a.filename) (lowercase b.filename) = true)
        pbo.entryHeaders) ∧
    (∀ h ∈ pbo.entryHeaders, h.packing_method = 0 ∧ h.original_size = h.data_size ∧
      ∃ c, (h.filename, c) ∈ pbo.files ∧ h.data_size = c.length % 4294967296) ∧
    PBO.write sha pbo =
      pbo.extBlockBytes ++ concatMap PBOHeader.encode pbo.entryHeaders ++
        PBOHeader.encode ⟨[], 0, 0, 0, 0, 0⟩ ++ pbo.contentBytes ++ [0] ++
        sha (pbo.headerBlock ++ pbo.contentBytes) := by
  refine ⟨?_, ?_, ?_, ?_⟩
  · rw [PBO.entryHeaders, List.pairwise_map]
    exact sortedFiles_sorted pbo
  · intro hnd
    rw [PBO.entryHeaders, List.pairwise_map]
    have hnd' : List.Pairwise (fun p q : List Nat × List Nat => lowercase p.1 ≠ lowercase q.1)
        pbo.sortedFiles := by
      refine ((sortedFiles_perm pbo).pairwise_iff ?_).mpr hnd
      intro a b hab
      exact fun hh => hab hh.symm
    have hsorted := sortedFiles_sorted pbo
    have := List.Pairwise.and hsorted hnd'
    refine this.imp ?_
    intro a b hab
    rcases lexLt_total _ _ hab.1 with he | hlt
    · exact absurd he.symm hab.2
    · exact hlt
  · intro h hh
    rw [PBO.entryHeaders] at hh
    obtain ⟨p, hp, hmk⟩ := List.mem_map.mp hh
    have hpf : p ∈ pbo.files := (sortedFiles_perm pbo).mem_iff.mp hp
    refine ⟨by rw [← hmk], by rw [← hmk], p.2, ?_, by rw [← hmk]⟩
    rw [← hmk]
    exact hpf
  · simp [PBO.write, PBO.headerBlock, List.append_assoc]

theorem entryHeaders_singleton (n c : List Nat) (e : List (List Nat × List Nat))
    (hs : List PBOHeader) (ck : Option (List Nat)) :
    PBO.entryHeaders ⟨[(n, c)], e, hs, ck⟩ =
      [⟨n, 0, c.length % 4294967296, 0, 0, c.length % 4294967296⟩] := by
  simp [PBO.entryHeaders, PBO.sortedFiles, insLow]

/-- C6, counterexample: the container holding `A` then `a` keeps both (a
stable sort on equal case-folded keys), so the emitted header names `A`,`a`
are not strictly ascending case-insensitively; and a single entry of
`2^32` zero bytes is emitted with `original_size = data_size = 0`, not its
content length. -/
theorem write_sorted_counterexample :
    PBO.entryHeaders ⟨[([65], []), ([97], [1])], [], [], none⟩ =
      [⟨[65], 0, 0, 0, 0, 0⟩, ⟨[97], 0, 1, 0, 0, 1⟩] ∧
    lexLt (lowercase [65]) (lowercase [97]) = false ∧
    PBO.entryHeaders ⟨[([97], List.replicate 4294967296 0)], [], [], none⟩ =
      [⟨[97], 0, 0, 0, 0, 0⟩] ∧
    (List.replicate (4294967296 : Nat) 0).length ≠ 0 := by
  refine ⟨by decide, by decide, ?_, ?_⟩
  · rw [entryHeaders_singleton, List.length_replicate, Nat.mod_self]
  · rw [List.length_replicate]
    omega

/-- C6, witness: the strict-order part applied to a container with the two
entries `b`, `a`, whose case-folded names are distinct. -/
theorem write_sorted_contract_witness :
    List.Pairwise
      (fun a b : PBOHeader => lexLt (lowercase a.filename) (lowercase b.filename) = true)
      (PBO.entryHeaders ⟨[([98], []), ([97], [])], [], [], none⟩) :=
  (write_sorted_contract ⟨[([98], []), ([97], [])], [], [], none⟩ (fun _ => [])).2.1
    (by decide)

/-! ### Round trip -/

theorem lhmInsert_fresh (m : List (List Nat × List Nat)) (k v : List Nat)
    (h : k ∉ keysOf m) : lhmInsert m k v = m ++ [(k, v)] := by
  unfold lhmInsert
  rw [if_neg]
  intro hany
  rw [List.any_eq_true] at hany
  obtain ⟨p, hp, hk⟩ := hany
  rw [decide_eq_true_eq] at hk
  exact h (hk ▸ List.mem_map_of_mem Prod.fst hp)

theorem foldl_lhmInsert_fresh (ps : List (List Nat × List Nat)) :
    ∀ acc : List (List Nat × List Nat), (keysOf (acc ++ ps)).Nodup →
    ps.foldl (fun m p => lhmInsert m p.1 p.2) acc = acc ++ ps := by
  induction ps with
  | nil => intro acc h; simp
  | cons p ps ih =>
    intro acc h
    have hk : p.1 ∉ keysOf acc := by
      intro hm
      simp only [keysOf, List.map_append, List.map_cons, List.nodup_append] at h
      exact h.2.2 hm (List.mem_cons_self _ _)
    simp only [List.foldl_cons, lhmInsert_fresh acc p.1 p.2 hk]
    rw [ih (acc ++ [p]) (by simpa [keysOf, List.append_assoc] using h)]
    simp [List.append_assoc]

theorem assocLookup_eq_none_iff (k : List Nat) (l : List (List Nat × List Nat)) :
    assocLookup k l = none ↔ k ∉ keysOf l := by
  induction l with
  | nil => simp [assocLookup, keysOf]
  | cons p ps ih =>
    by_cases hp : p.1 = k
    · simp only [assocLookup, if_pos hp, keysOf, List.map_cons]
      constructor
      · intro h; cases h
      · intro h
        exact absurd (by rw [hp]; exact List.mem_cons_self _ _ : k ∈ p.1 :: List.map Prod.fst ps) h
    · simp only [assocLookup, if_neg hp, keysOf, List.map_cons, List.mem_cons] at ih ⊢
      rw [ih]
      constructor
      · intro h hm
        rcases hm with hm | hm
        · exact hp hm.symm
        · exact h hm
      · intro h hm
        exact h (Or.inr hm)

theorem assocLookup_some_mem (k v : List Nat) :
    ∀ l : List (List Nat × List Nat), assocLookup k l = some v → (k, v) ∈ l := by
  intro l
  induction l with
  | nil => intro h; simp [assocLookup] at h
  | cons p ps ih =>
    intro h
    simp only [assocLookup] at h
    by_cases hp : p.1 = k
    · rw [if_pos hp] at h
      have hv : p.2 = v := by injection h
      have hpe : p = (k, v) := by
        obtain ⟨p1, p2⟩ := p
        simp only at hp hv
        rw [hp, hv]
      rw [← hpe]
      exact List.mem_cons_self _ _
    · rw [if_neg hp] at h
      exact List.mem_cons_of_mem _ (ih h)

theorem assocLookup_eq_some_of_mem (k v : List Nat) :
    ∀ l : List (List Nat × List Nat), (keysOf l).Nodup → (k, v) ∈ l →
      assocLookup k l = some v := by
  intro l
  induction l with
  | nil => intro hnd h; simp at h
  | cons p ps ih =>
    intro hnd h
    rcases List.mem_cons.mp h with he | hm
    · rw [← he]
      simp [assocLookup]
    · have hnd1 : p.1 ∉ List.map Prod.fst ps ∧ (keysOf ps).Nodup := by
        simpa [keysOf] using hnd
      have hp : ¬p.1 = k := by
        intro hh
        exact hnd1.1 (hh ▸ List.mem_map_of_mem Prod.fst hm)
      simp only [assocLookup, if_neg hp]
      exact ih hnd1.2 hm

theorem assocLookup_eq_of_perm (l l' : List (List Nat × List Nat)) (hperm : l.Perm l')
    (hnd : (keysOf l).Nodup) (k : List Nat) : assocLookup k l = assocLookup k l' := by
  have hnd' : (keysOf l').Nodup := ((hperm.map Prod.fst).nodup_iff).mp hnd
  cases hv : assocLookup k l with
  | none =>
    have hk := (assocLookup_eq_none_iff k l).mp hv
    have hk' : k ∉ keysOf l' := fun hm => hk (((hperm.map Prod.fst).mem_iff).mpr hm)
    exact ((assocLookup_eq_none_iff k l').mpr hk').symm
  | some v =>
    have hm := assocLookup_some_mem k v l hv
    exact (assocLookup_eq_some_of_mem k v l' hnd' (hperm.mem_iff.mp hm)).symm
theorem concatMap_append {α : Type} (f : α → List Nat) (l1 l2 : List α) :
    concatMap f (l1 ++ l2) = concatMap f l1 ++ concatMap f l2 := by
  induction l1 with
  | nil => rfl
  | cons x xs ih => simp [concatMap, ih, List.append_assoc]

theorem concatMap_skip_eq_filter (exts : List (List Nat × List Nat)) :
    concatMap (fun p => if p.1 = prefixKey then [] else extPairBytes p) exts =
      concatMap extPairBytes (exts.filter fun p => !decide (p.1 = prefixKey)) := by
  induction exts with
  | nil => rfl
  | cons p ps ih =>
    by_cases hp : p.1 = prefixKey
    · simp [concatMap, hp, List.filter, ih]
    · simp [concatMap, hp, List.filter, ih]

theorem extBlockBytes_eq (pbo : PBO) :
    pbo.extBlockBytes = PBOHeader.encode ⟨[], 0x56657273, 0, 0, 0, 0⟩ ++
      (concatMap extPairBytes (prefixPairList pbo.header_extensions) ++ [0]) := by
  rw [PBO.extBlockBytes, prefixPairList]
  cases h : assocLookup prefixKey pbo.header_extensions with
  | none => simp [concatMap_skip_eq_filter, List.append_assoc]
  | some v => simp [concatMap_skip_eq_filter, concatMap, List.append_assoc]

theorem prefixPairList_wf (exts : List (List Nat × List Nat))
    (he : ∀ p ∈ exts, p.1 ≠ [] ∧ 0 ∉ p.1 ∧ 0 ∉ p.2) :
    ∀ p ∈ prefixPairList exts, p.1 ≠ [] ∧ 0 ∉ p.1 ∧ 0 ∉ p.2 := by
  intro p hp
  rw [prefixPairList] at hp
  rcases List.mem_append.mp hp with h | h
  · cases hl : assocLookup prefixKey exts with
    | none => rw [hl] at h; simp at h
    | some v =>
      rw [hl] at h
      simp only [List.mem_singleton] at h
      subst h
      exact he _ (assocLookup_some_mem _ _ _ hl)
  · exact he _ (List.mem_filter.mp h).1

theorem keysOf_filter_no_prefix (l : List (List Nat × List Nat)) :
    prefixKey ∉ keysOf (l.filter fun p => !decide (p.1 = prefixKey)) := by
  intro hm
  rw [keysOf] at hm
  obtain ⟨p, hp, hk⟩ := List.mem_map.mp hm
  have := (List.mem_filter.mp hp).2
  rw [hk] at this
  simp at this

theorem prefixPairList_keys_nodup (exts : List (List Nat × List Nat))
    (hnd : (keysOf exts).Nodup) : (keysOf (prefixPairList exts)).Nodup := by
  have hsub : (keysOf (exts.filter fun p => !decide (p.1 = prefixKey))).Sublist (keysOf exts) :=
    (List.filter_sublist exts).map Prod.fst
  have hfnd : (keysOf (exts.filter fun p => !decide (p.1 = prefixKey))).Nodup :=
    hsub.nodup hnd
  rw [prefixPairList]
  cases hl : assocLookup prefixKey exts with
  | none => simpa [keysOf] using hfnd
  | some v =>
    rw [keysOf, List.map_append]
    rw [List.nodup_append]
    refine ⟨by simp, by simpa [keysOf] using hfnd, ?_⟩
    intro a ha
    simp only [List.map_cons, List.map_nil, List.mem_singleton] at ha
    subst ha
    exact fun hm => keysOf_filter_no_prefix exts (by simpa [keysOf] using hm)

theorem assocLookup_filter_ne (k : List Nat) (hk : k ≠ prefixKey)
    (l : List (List Nat × List Nat)) :
    assocLookup k (l.filter fun p => !decide (p.1 = prefixKey)) = assocLookup k l := by
  induction l with
  | nil => rfl
  | cons p ps ih =>
    by_cases hp : p.1 = prefixKey
    · have hpk : ¬p.1 = k := by rw [hp]; exact fun hh => hk hh.symm
      have hfl : List.filter (fun p => !decide (p.1 = prefixKey)) (p :: ps) =
          List.filter (fun p => !decide (p.1 = prefixKey)) ps := by
        simp [List.filter_cons, hp]
      rw [hfl, ih]
      simp only [assocLookup, if_neg hpk]
    · have hfl : List.filter (fun p => !decide (p.1 = prefixKey)) (p :: ps) =
          p :: List.filter (fun p => !decide (p.1 = prefixKey)) ps := by
        simp [List.filter_cons, hp]
      rw [hfl]
      simp only [assocLookup]
      by_cases hpk : p.1 = k
      · rw [if_pos hpk, if_pos hpk]
      · rw [if_neg hpk, if_neg hpk]
        exact ih

theorem prefixPairList_lookup (exts : List (List Nat × List Nat)) (k : List Nat) :
    assocLookup k (prefixPairList exts) = assocLookup k exts := by
  by_cases hk : k = prefixKey
  · subst hk
    cases hl : assocLookup prefixKey exts with
    | some v => rw [prefixPairList, hl]; simp [assocLookup]
    | none =>
      rw [prefixPairList, hl, List.nil_append]
      rw [assocLookup_eq_none_iff]
      exact keysOf_filter_no_prefix exts
  · rw [prefixPairList]
    cases hl : assocLookup prefixKey exts with
    | none =>
      rw [List.nil_append]
      exact assocLookup_filter_ne k hk exts
    | some v =>
      simp only [List.singleton_append, assocLookup,
        if_neg (fun hh : prefixKey = k => hk hh.symm)]
      exact assocLookup_filter_ne k hk exts
theorem readLoop_extBlock (pbo : PBO) (rest : List Nat)
    (he : ∀ p ∈ pbo.header_extensions, p.1 ≠ [] ∧ 0 ∉ p.1 ∧ 0 ∉ p.2)
    (hek : (keysOf pbo.header_extensions).Nodup) :
    readLoop (pbo.extBlockBytes ++ rest) true [] [] =
      readLoop rest false [] (prefixPairList pbo.header_extensions) := by
  rw [extBlockBytes_eq]
  have hassoc : (PBOHeader.encode ⟨[], 0x56657273, 0, 0, 0, 0⟩ ++
      (concatMap extPairBytes (prefixPairList pbo.header_extensions) ++ [0])) ++ rest =
      PBOHeader.encode ⟨[], 0x56657273, 0, 0, 0, 0⟩ ++
        (concatMap extPairBytes (prefixPairList pbo.header_extensions) ++ (0 :: rest)) := by
    simp [List.append_assoc]
  rw [hassoc]
  rw [readLoop_sent_first _ _ ⟨[], 0x56657273, 0, 0, 0, 0⟩ [] []
      (PBOHeader.read_encode _ _ (by simp) (by decide) (by decide) (by decide) (by decide)
        (by decide)) rfl]
  rw [readExtLoop_pairs (prefixPairList pbo.header_extensions) rest []
      (prefixPairList_wf _ he)]
  rw [foldl_lhmInsert_fresh _ _ (by simpa using prefixPairList_keys_nodup _ hek)]
  simp
theorem entryHeaders_good (pbo : PBO) (hf : ∀ p ∈ pbo.files, p.1 ≠ [] ∧ 0 ∉ p.1) :
    ∀ h ∈ pbo.entryHeaders,
      goodHeader h ∧ h.packing_method ≠ 0x56657273 ∧ h.filename ≠ [] := by
  intro h hh
  rw [PBO.entryHeaders] at hh
  obtain ⟨p, hp, hmk⟩ := List.mem_map.mp hh
  have hpf := (sortedFiles_perm pbo).mem_iff.mp hp
  obtain ⟨h1, h2⟩ := hf p hpf
  subst hmk
  refine ⟨⟨h2, ?_, ?_, ?_, ?_, ?_⟩, ?_, h1⟩
  · show (0 : Nat) < 4294967296
    omega
  · show p.2.length % 4294967296 < 4294967296
    exact Nat.mod_lt _ (by omega)
  · show (0 : Nat) < 4294967296
    omega
  · show (0 : Nat) < 4294967296
    omega
  · show p.2.length % 4294967296 < 4294967296
    exact Nat.mod_lt _ (by omega)
  · show (0 : Nat) ≠ 0x56657273
    omega

theorem readContents_map (fs : List (List Nat × List Nat)) :
    ∀ (rest : List Nat) (acc : List (List Nat × List Nat)),
    (keysOf (acc ++ fs)).Nodup → (∀ p ∈ fs, p.2.length < 4294967296) →
    readContents
        (fs.map fun p => ⟨p.1, 0, p.2.length % 4294967296, 0, 0, p.2.length % 4294967296⟩)
        (concatMap Prod.snd fs ++ rest) acc =
      some (acc ++ fs, rest) := by
  induction fs with
  | nil => intro rest acc hnd hlen; simp [readContents, concatMap]
  | cons p ps ih =>
    intro rest acc hnd hlen
    have hplen := hlen p (List.mem_cons_self _ _)
    have hks : p.1 ∉ keysOf acc := by
      intro hm
      simp only [keysOf, List.map_append, List.map_cons, List.nodup_append] at hnd
      exact hnd.2.2 hm (List.mem_cons_self _ _)
    have hassoc : concatMap Prod.snd (p :: ps) ++ rest =
        p.2 ++ (concatMap Prod.snd ps ++ rest) := by
      simp [concatMap, List.append_assoc]
    rw [hassoc]
    simp only [List.map_cons, readContents]
    rw [Nat.mod_eq_of_lt hplen]
    rw [if_pos (by simp [List.length_append])]
    rw [List.take_left, List.drop_left]
    rw [lhmInsert_fresh acc p.1 p.2 hks]
    have hpp : (p.1, p.2) = p := rfl
    rw [hpp]
    rw [ih rest (acc ++ [p]) (by simpa [keysOf, List.append_assoc] using hnd)
        (fun q hq => hlen q (List.mem_cons_of_mem _ hq))]
    simp [List.append_assoc]
/-- Assembling `PBO::read` from its phases: when the header loop lands in
the `done` state, the content phase succeeds and at least 21 bytes remain
(the skipped byte plus the 20-byte checksum), `read` returns the decoded
container. -/
theorem PBO.read_done (input rest rest2 : List Nat) (hs : List PBOHeader)
    (exts files : List (List Nat × List Nat))
    (hl : readLoop input true [] [] = .done hs exts rest)
    (hc : readContents hs rest [] = some (files, rest2))
    (hlen : 20 ≤ (rest2.drop 1).length) :
    PBO.read input = .ok ⟨files, exts, hs, some ((rest2.drop 1).take 20)⟩ := by
  have hlen2 : 20 ≤ rest2.length - 1 := by simpa using hlen
  simp [PBO.read, hl, hc, hlen2]
/-- C1 (amended): for every container whose entry names are nonempty,
NUL-free and pairwise distinct, whose entry contents are shorter than
`2^32` bytes, whose metadata keys are nonempty, NUL-free and pairwise
distinct with NUL-free values, and for every 20-byte digest function,
reading back the stream produced by `write` succeeds and reproduces both
the entries mapping (each name to the same bytes) and the metadata mapping;
the read-back container additionally carries the derived checksum and
header table. -/
theorem read_write_roundtrip (sha : List Nat → List Nat) (pbo : PBO)
    (hsha : ∀ x, (sha x).length = 20)
    (hfk : (keysOf pbo.files).Nodup)
    (hf : ∀ p ∈ pbo.files, p.1 ≠ [] ∧ 0 ∉ p.1 ∧ p.2.length < 4294967296)
    (hek : (keysOf pbo.header_extensions).Nodup)
    (he : ∀ p ∈ pbo.header_extensions, p.1 ≠ [] ∧ 0 ∉ p.1 ∧ 0 ∉ p.2) :
    ∃ pbo', PBO.read (PBO.write sha pbo) = .ok pbo' ∧
      (∀ n, assocLookup n pbo'.files = assocLookup n pbo.files) ∧
      (∀ k, assocLookup k pbo'.header_extensions = assocLookup k pbo.header_extensions) := by
  have hw : PBO.write sha pbo =
      pbo.extBlockBytes ++ (concatMap PBOHeader.encode pbo.entryHeaders ++
        (PBOHeader.encode ⟨[], 0, 0, 0, 0, 0⟩ ++
          (pbo.contentBytes ++ 0 :: sha (pbo.headerBlock ++ pbo.contentBytes)))) := by
    rw [PBO.write, PBO.headerBlock]
    simp [List.append_assoc]
  have hsortperm := sortedFiles_perm pbo
  have hsortnodup : (keysOf pbo.sortedFiles).Nodup :=
    ((hsortperm.map Prod.fst).nodup_iff).mpr hfk
  have hgood := entryHeaders_good pbo (fun p hp => ⟨(hf p hp).1, (hf p hp).2.1⟩)
  have hloop : readLoop (PBO.write sha pbo) true [] [] =
      .done pbo.entryHeaders (prefixPairList pbo.header_extensions)
        (pbo.contentBytes ++ 0 :: sha (pbo.headerBlock ++ pbo.contentBytes)) := by
    rw [hw, readLoop_extBlock pbo _ he hek,
      readLoop_headers pbo.entryHeaders _ [] (prefixPairList pbo.header_extensions) hgood,
      readLoop_term _ _ ⟨[], 0, 0, 0, 0, 0⟩ false _ _
        (PBOHeader.read_encode _ _ (by simp) (by decide) (by decide) (by decide) (by decide)
          (by decide)) (by decide) rfl]
    simp
  have hcont : readContents pbo.entryHeaders
      (pbo.contentBytes ++ 0 :: sha (pbo.headerBlock ++ pbo.contentBytes)) [] =
      some (pbo.sortedFiles, 0 :: sha (pbo.headerBlock ++ pbo.contentBytes)) := by
    have := readContents_map pbo.sortedFiles
      (0 :: sha (pbo.headerBlock ++ pbo.contentBytes)) [] (by simpa using hsortnodup)
      (fun q hq => (hf q (hsortperm.mem_iff.mp hq)).2.2)
    simp only [PBO.entryHeaders, PBO.contentBytes]
    simpa using this
  refine ⟨⟨pbo.sortedFiles, prefixPairList pbo.header_extensions, pbo.entryHeaders,
    some ((sha (pbo.headerBlock ++ pbo.contentBytes)).take 20)⟩, ?_, ?_, ?_⟩
  · have hr := PBO.read_done _ _ _ _ _ _ hloop hcont
      (by rw [List.drop_one, List.tail_cons, hsha])
    rw [List.drop_one, List.tail_cons] at hr
    exact hr
  · intro n
    exact assocLookup_eq_of_perm _ _ hsortperm hsortnodup n
  · intro k
    exact prefixPairList_lookup pbo.header_extensions k
theorem roundtrip_single (sha : List Nat → List Nat) (n c : List Nat)
    (hsha : ∀ x, (sha x).length = 20) (hn : n ≠ []) (h0 : 0 ∉ n) :
    ∃ ck, PBO.read (PBO.write sha ⟨[(n, c)], [], [], none⟩) =
      .ok ⟨[(n, c.take (c.length % 4294967296))], [],
        [⟨n, 0, c.length % 4294967296, 0, 0, c.length % 4294967296⟩], ck⟩ := by
  have hd : c.length % 4294967296 ≤ c.length := Nat.mod_le _ _
  have hw : PBO.write sha ⟨[(n, c)], [], [], none⟩ =
      PBO.extBlockBytes ⟨[(n, c)], [], [], none⟩ ++
        (concatMap PBOHeader.encode (PBO.entryHeaders ⟨[(n, c)], [], [], none⟩) ++
          (PBOHeader.encode ⟨[], 0, 0, 0, 0, 0⟩ ++
            (PBO.contentBytes ⟨[(n, c)], [], [], none⟩ ++
              0 :: sha (PBO.headerBlock ⟨[(n, c)], [], [], none⟩ ++
                PBO.contentBytes ⟨[(n, c)], [], [], none⟩)))) := by
    rw [PBO.write, PBO.headerBlock]
    simp [List.append_assoc]
  have hgood := entryHeaders_good ⟨[(n, c)], [], [], none⟩
    (by intro p hp; simp only [List.mem_singleton] at hp; subst hp; exact ⟨hn, h0⟩)
  have hpl : prefixPairList ([] : List (List Nat × List Nat)) = [] := rfl
  have hloop : readLoop (PBO.write sha ⟨[(n, c)], [], [], none⟩) true [] [] =
      .done (PBO.entryHeaders ⟨[(n, c)], [], [], none⟩) []
        (PBO.contentBytes ⟨[(n, c)], [], [], none⟩ ++
          0 :: sha (PBO.headerBlock ⟨[(n, c)], [], [], none⟩ ++
            PBO.contentBytes ⟨[(n, c)], [], [], none⟩)) := by
    rw [hw, readLoop_extBlock ⟨[(n, c)], [], [], none⟩ _ (by simp) (by simp [keysOf]),
      readLoop_headers _ _ [] _ (by exact hgood),
      readLoop_term _ _ ⟨[], 0, 0, 0, 0, 0⟩ false _ _
        (PBOHeader.read_encode _ _ (by simp) (by decide) (by decide) (by decide) (by decide)
          (by decide)) (by decide) rfl]
    simp [hpl]
  have hhdrs : PBO.entryHeaders ⟨[(n, c)], [], [], none⟩ =
      [⟨n, 0, c.length % 4294967296, 0, 0, c.length % 4294967296⟩] :=
    entryHeaders_singleton n c [] [] none
  have hcb : PBO.contentBytes ⟨[(n, c)], [], [], none⟩ = c := by
    simp [PBO.contentBytes, PBO.sortedFiles, insLow, concatMap]
  have hcont : readContents (PBO.entryHeaders ⟨[(n, c)], [], [], none⟩)
      (PBO.contentBytes ⟨[(n, c)], [], [], none⟩ ++
        0 :: sha (PBO.headerBlock ⟨[(n, c)], [], [], none⟩ ++
          PBO.contentBytes ⟨[(n, c)], [], [], none⟩)) [] =
      some ([(n, c.take (c.length % 4294967296))],
        c.drop (c.length % 4294967296) ++
          0 :: sha (PBO.headerBlock ⟨[(n, c)], [], [], none⟩ ++
            PBO.contentBytes ⟨[(n, c)], [], [], none⟩)) := by
    rw [hhdrs, hcb]
    simp only [readContents]
    rw [if_pos (by rw [List.length_append]; omega)]
    rw [List.take_append_of_le_length hd, List.drop_append_of_le_length hd]
    rw [show lhmInsert [] n (c.take (c.length % 4294967296)) =
        [(n, c.take (c.length % 4294967296))] from rfl]
  refine ⟨some (((c.drop (c.length % 4294967296) ++
      0 :: sha (PBO.headerBlock ⟨[(n, c)], [], [], none⟩ ++
        PBO.contentBytes ⟨[(n, c)], [], [], none⟩)).drop 1).take 20), ?_⟩
  have hr := PBO.read_done _ _ _ _ _ _ hloop hcont
    (by rw [List.length_drop, List.length_append, List.length_cons, hsha]; omega)
  rw [hhdrs] at hr
  exact hr
/-- C1, counterexample: the claim fails for three containers its quantifier
admits.  With the arbitrary metadata `{"" → ""}` the writer emits an empty
key, which the reader takes as the end of the metadata block, so the
read-back metadata is empty and the mapping at key `""` is not reproduced.
With metadata `{k → "a\0b"}` the NUL inside the value shifts the reader's
framing and `read` fails outright.  And a single `2^32`-byte entry is
written with a size field of `0` (the `as u32` cast), so it reads back as
the empty entry, not the original bytes. -/
theorem roundtrip_counterexample :
    PBO.read (PBO.write (fun _ => List.replicate 20 0) ⟨[], [([], [])], [], none⟩) =
      .ok ⟨[], [], [], some (List.replicate 20 0)⟩ ∧
    assocLookup [] ([([], [])] : List (List Nat × List Nat)) = some [] ∧
    PBO.read (PBO.write (fun _ => List.replicate 20 0) ⟨[], [([107], [97, 0, 98])], [], none⟩) =
      .ioError ∧
    (∃ ck, PBO.read (PBO.write (fun _ => List.replicate 20 0)
        ⟨[([97], List.replicate 4294967296 0)], [], [], none⟩) =
      .ok ⟨[([97], [])], [], [⟨[97], 0, 0, 0, 0, 0⟩], ck⟩) ∧
    List.replicate (4294967296 : Nat) 0 ≠ [] := by
  refine ⟨by decide, by decide, by decide, ?_, ?_⟩
  · obtain ⟨ck, hck⟩ := roundtrip_single (fun _ => List.replicate 20 0) [97]
      (List.replicate 4294967296 0) (fun _ => by rw [List.length_replicate]) (by decide)
      (by decide)
    refine ⟨ck, ?_⟩
    rw [hck, List.length_replicate, Nat.mod_self, List.take_zero]
  · intro h
    have hl := congrArg List.length h
    rw [List.length_replicate, List.length_nil] at hl
    exact absurd hl (by omega)

/-- C1, witness: the amended round trip applied to the container with one
entry `a → x` and one metadata pair `k → v`. -/
theorem read_write_roundtrip_witness :
    ∃ pbo', PBO.read (PBO.write (fun _ => List.replicate 20 0)
        ⟨[([97], [120])], [([107], [118])], [], none⟩) = .ok pbo' ∧
      (∀ n, assocLookup n pbo'.files = assocLookup n [([97], [120])]) ∧
      (∀ k, assocLookup k pbo'.header_extensions = assocLookup k [([107], [118])]) :=
  read_write_roundtrip (fun _ => List.replicate 20 0)
    ⟨[([97], [120])], [([107], [118])], [], none⟩ (fun _ => rfl) (by decide) (by decide)
    (by decide) (by decide)

end Armake
